import Mathlib

/-!
# Annotating ways with node history (package annotate, way.go)

A shallow embedding of `annotate/way.go`: the adapter `parentWay` that presents
an `osm.Way` to the reconciliation engine `core.Compute`, and the entry point
`Ways`.  The ways live in a heap and the input slice of Ways is a list of
pointers into it, which may be nil or repeated; a Go run-time panic is a value
of `Panic` next to the state reached when it was raised.
-/

namespace annotate

/-! ## Data model -/

/-- An instant (`time.Time`), as nanoseconds elapsed since the zero value `time.Time{}`. -/
structure Time where
  sinceZero : Int
  deriving DecidableEq, Repr

/-- The zero value `time.Time{}`. -/
def Time.zero : Time := ⟨0⟩

/-- A `time.Duration`: a signed count of nanoseconds. -/
abbrev Duration := Int

/-- The duration `t.Sub(u)`. -/
def Time.Sub (t u : Time) : Duration := t.sinceZero - u.sinceZero

/-- A `float64`, kept as its bit pattern: way.go only copies coordinates. -/
structure Float64 where
  bits : Nat
  deriving DecidableEq, Repr

/-- A Go `error` value. -/
structure Error where
  msg : String
  deriving DecidableEq, Repr

/-- The run-time panics that the statements of way.go can raise. -/
inductive Panic where
  | indexOutOfRange
  | typeAssertion
  | nilDereference
  deriving DecidableEq, Repr

/-- The kind of feature an `osm.FeatureID` names. -/
inductive FeatureType where
  | node
  | way
  | relation
  deriving DecidableEq, Repr

/-- Modelled from the spec: `osm.FeatureID` is declared outside way.go; a feature id (§3)
identifies a feature, here by its kind and its numeric id, without a version. -/
structure FeatureID where
  kind : FeatureType
  ref : Int
  deriving DecidableEq, Repr

/-- An `osm.Node`, a version of a node: the fields way.go copies (Version, ChangesetID, Lat,
Lon) and those of a child version in §3 of the specification (identity, visibility flag,
timestamp). -/
structure Node where
  ID : Int
  Lat : Float64
  Lon : Float64
  Version : Int
  ChangesetID : Int
  Visible : Bool
  Timestamp : Time
  deriving DecidableEq, Repr

/-- An `osm.WayNode`, one entry of a way's node list: the id of the node and the annotations
that SetChildren writes. -/
structure WayNode where
  ID : Int
  Version : Int
  ChangesetID : Int
  Lat : Float64
  Lon : Float64
  deriving DecidableEq, Repr

/-- Modelled from the spec: `WayNode.FeatureID` is declared outside way.go; the reference of a
way node is the feature id of the node it names (§3, "child feature IDs"). -/
def WayNode.FeatureID (n : WayNode) : FeatureID := ⟨FeatureType.node, n.ID⟩

/-- Modelled from the spec: `WayNodes.FeatureIDs` is declared outside way.go; §3 describes the
parent's references as "an ordered sequence of child feature IDs", one per position of the
reference list, so the list holds the feature id of every way node in order. -/
def WayNodes.FeatureIDs (nodes : List WayNode) : List FeatureID :=
  nodes.map WayNode.FeatureID

/-- Modelled from the spec: a Checkpoint (§3) is "a timestamp plus, for every position in the
parent's reference list, the child version in effect at that timestamp (or absent)"; it is the
element type of `osm.Updates`, declared outside way.go. -/
structure Checkpoint where
  Timestamp : Time
  state : List (Option Node)
  deriving DecidableEq, Repr

/-- The update history of a way (`osm.Updates`). -/
abbrev Updates := List Checkpoint

/-- An `osm.Way`, with the fields way.go reads or writes. -/
structure Way where
  ID : Int
  Visible : Bool
  Version : Int
  ChangesetID : Int
  Timestamp : Time
  Committed : Option Time
  Nodes : List WayNode
  Updates : Updates
  deriving DecidableEq, Repr

/-- The struct `childNode` that wraps a node as a `core.Child`; `Node` is a pointer and may be
nil. -/
structure childNode where
  Index : Int
  Node : Option Node
  deriving DecidableEq, Repr

/-- A non-nil value of the interface `core.Child`, by dynamic type: a `*childNode` (the pointer
itself may be nil) or a value of some other implementing type. -/
inductive Child where
  | childNode (p : Option childNode)
  | other (typeName : String)
  deriving DecidableEq, Repr

/-- A `core.ChildList`: one interface value per position, `none` being the nil interface. -/
abbrev ChildList := List (Option Child)

/-- The type assertion `child.(*childNode)`: the pointer, or `none` when the dynamic type is
another one (the assertion panics). -/
def Child.assertChildNode : Child → Option (Option annotate.childNode)
  | Child.childNode p => some p
  | Child.other _ => none

/-- Whether the dynamic type of a child is `*childNode`. -/
def Child.isChildNode : Child → Bool
  | Child.childNode _ => true
  | Child.other _ => false

/-- The node a child wraps: `child.(*childNode).Node`, for a non-nil `*childNode` whose Node
is set; `none` for every other child. -/
def Child.node? : Child → Option Node
  | Child.childNode (some c) => c.Node
  | _ => none

/-- Whether a child of dynamic type `*childNode` is a nil pointer or holds a nil Node, the
pointers that the reads `child.(*childNode).Node` and `n.Version` follow. -/
def Child.holdsNil : Child → Bool
  | Child.childNode none => true
  | Child.childNode (some c) => c.Node.isNone
  | Child.other _ => false

/-- A parentWay wraps a way into the `core.Parent` interface; `refs` is `none` for a nil
slice. -/
structure parentWay where
  Way : Way
  children : ChildList
  refs : Option (List FeatureID)
  deriving DecidableEq, Repr

/-! ## Methods of parentWay -/

def parentWay.ID (w : parentWay) : FeatureID := ⟨FeatureType.way, w.Way.ID⟩

def parentWay.ChangesetID (w : parentWay) : Int := w.Way.ChangesetID

def parentWay.Version (w : parentWay) : Int := w.Way.Version

def parentWay.Visible (w : parentWay) : Bool := w.Way.Visible

def parentWay.Timestamp (w : parentWay) : Time := w.Way.Timestamp

/-- The method `Committed`: the zero time when the way has no committed timestamp, otherwise
the committed timestamp. -/
def parentWay.Committed (w : parentWay) : Time :=
  match w.Way.Committed with
  | none => Time.zero
  | some t => t

/-- The body of `Refs`, run on the receiver: the returned list and the receiver as the body
leaves it. -/
def parentWay.Refs.body (w : parentWay) : List FeatureID × parentWay :=
  let w1 : parentWay :=
    match w.refs with
    | none => { w with refs := some (WayNodes.FeatureIDs w.Way.Nodes) }
    | some _ => w
  (w1.refs.getD [], w1)

/-- A call `w.Refs()`.  The receiver is passed by value: the body runs on a copy, the caller
keeps `w`.  Returns the list and the caller's parentWay after the call. -/
def parentWay.Refs (w : parentWay) : List FeatureID × parentWay :=
  ((parentWay.Refs.body w).1, w)

def parentWay.Children (w : parentWay) : ChildList := w.children

/-- The loop of `SetChildren` from position `i` on, over the way's node list: the node list
reached, and the panic that stopped the loop if one did.  At a non-nil child the type assertion
and the read of `.Node` come first; in the assignment to `Nodes[i].Version` the read of
`n.Version` comes before the bounds check of `Nodes[i]`.  The first of the four assignments
raises the panic of the statement, so none is carried out when one fails. -/
def parentWay.SetChildren.loop (nodes : List WayNode) :
    Nat → ChildList → List WayNode × Option Panic
  | _, [] => (nodes, none)
  | i, none :: rest => parentWay.SetChildren.loop nodes (i + 1) rest
  | i, some child :: rest =>
    match child.assertChildNode with
    | none => (nodes, some Panic.typeAssertion)
    | some none => (nodes, some Panic.nilDereference)
    | some (some c) =>
      match c.Node with
      | none => (nodes, some Panic.nilDereference)
      | some n =>
        match nodes[i]? with
        | none => (nodes, some Panic.indexOutOfRange)
        | some wn =>
          parentWay.SetChildren.loop
            (nodes.set i { wn with Version := n.Version, ChangesetID := n.ChangesetID,
                                   Lat := n.Lat, Lon := n.Lon })
            (i + 1) rest

/-- The method `SetChildren` (pointer receiver): records the child list, then copies the node
information back onto the way nodes.  Returns the parentWay reached and the panic raised, if
any. -/
def parentWay.SetChildren (w : parentWay) (list : ChildList) : parentWay × Option Panic :=
  let r := parentWay.SetChildren.loop w.Way.Nodes 0 list
  ({ w with children := list, Way := { w.Way with Nodes := r.1 } }, r.2)

/-! ## The entry point Ways -/

/-- The interface `NodeHistoryDatasourcer`: the history of a node, or an error, and the test
whether an error means "not found". -/
structure NodeHistoryDatasourcer where
  NodeHistory : Int → Except Error (List Node)
  NotFound : Error → Bool

/-- The adapter `wayDatasource` that Ways hands to `core.Compute`. -/
structure wayDatasource where
  datasource : NodeHistoryDatasourcer

/-- A `context.Context`, reduced to whether it has been cancelled. -/
structure Context where
  cancelled : Bool
  deriving DecidableEq, Repr

/-- Modelled from the spec: `core.Options` is declared outside way.go; §6 lists the recognized
options as Threshold (minimum spacing between emitted checkpoints) and ConcurrencyLimit (max
simultaneous history fetches). -/
structure Options where
  Threshold : Duration
  ConcurrencyLimit : Int
  deriving DecidableEq, Repr

/-- An option of Ways, a `func(*core.Options) error`: the options as the call leaves them and
the error it returns (`none` for nil). -/
abbrev WaysOption := Options → Options × Option Error

/-- The heap of ways: the way stored at each address. -/
abbrev Heap := Nat → Way

/-- A `*osm.Way`: nil (`none`) or the address of a way in the heap. -/
abbrev WayPtr := Option Nat

/-- A parentWay as Ways builds it and `core.Compute` holds it, `&parentWay{Way: w}`: the field
Way is a pointer, which may be nil and may be shared with other parents.  A `parentWay` is such
a record with its way loaded from the heap. -/
structure parentWayRef where
  Way : WayPtr
  children : ChildList
  refs : Option (List FeatureID)
  deriving DecidableEq, Repr

/-- The parentWay behind a reference, with the way its pointer names in the heap; `none` when
the pointer is nil. -/
def parentWayRef.load (heap : Heap) (p : parentWayRef) : Option parentWay :=
  p.Way.map fun a => { Way := heap a, children := p.children, refs := p.refs }

/-- The loop of SetChildren on a parentWay whose Way pointer is nil: a nil child is skipped, and
the first non-nil child raises a panic, the failed type assertion or else a nil dereference (of
the child, of its Node or of the way). -/
def parentWay.SetChildren.loopNil : ChildList → Option Panic
  | [] => none
  | none :: rest => parentWay.SetChildren.loopNil rest
  | some child :: _ =>
    match child.assertChildNode with
    | none => some Panic.typeAssertion
    | some _ => some Panic.nilDereference

/-- The method SetChildren called through a reference: the way that the pointer names is read
from the heap, annotated, and written back.  Returns the heap and the parent reached and the
panic raised, if any. -/
def parentWayRef.SetChildren (heap : Heap) (p : parentWayRef) (list : ChildList) :
    Heap × parentWayRef × Option Panic :=
  match p.Way with
  | none => (heap, { p with children := list }, parentWay.SetChildren.loopNil list)
  | some a =>
    let r := parentWay.SetChildren { Way := heap a, children := p.children, refs := p.refs } list
    (Function.update heap a r.1.Way, { p with children := list }, r.2)

/-- How a call of `core.Compute` ends: it returns the update lists with a nil error, it returns
an error, or it raises a panic of its own. -/
inductive ComputeReturn where
  | updates (updatesForParents : List Updates)
  | error (err : Error)
  | panic (e : Panic)

/-- What a call of `core.Compute` does, as way.go can observe it.  Compute is declared outside
way.go and holds the parents only through the interface `core.Parent`, whose one mutating
method is SetChildren: a call amounts to the SetChildren calls it makes, in order and each on
the parent at a position of the list it was given, and to the way it ends. -/
structure ComputeOutcome where
  setChildren : List (Nat × ChildList)
  result : ComputeReturn

/-- The signature of `core.Compute`; the heap is what Compute can read through the parents. -/
abbrev ComputeFn :=
  Context → Heap → List parentWayRef → wayDatasource → Options → ComputeOutcome

/-- The loop over the options (lines 30-35): each option is applied to the options built so
far; the first error ends the loop and is returned. -/
def Ways.applyOptions : Options → List WaysOption → Except Error Options
  | c, [] => Except.ok c
  | c, o :: rest =>
    match o c with
    | (_, some err) => Except.error err
    | (c1, none) => Ways.applyOptions c1 rest

/-- The parent list (lines 38-41): one parentWay per entry of `ways`, in order, holding that
entry as its way pointer. -/
def Ways.parents (ways : List WayPtr) : List parentWayRef :=
  ways.map fun w => { Way := w, children := [], refs := none }

/-- Carries out the SetChildren calls of a Compute call on the parents, in order, stopping at
the first panic.  A call that names no position of the list changes nothing. -/
def Ways.runSetChildren :
    Heap → List parentWayRef → List (Nat × ChildList) → Heap × Option Panic
  | heap, _, [] => (heap, none)
  | heap, ps, (i, list) :: rest =>
    match ps[i]? with
    | none => Ways.runSetChildren heap ps rest
    | some p =>
      match p.SetChildren heap list with
      | (heap1, _, some e) => (heap1, some e)
      | (heap1, p1, none) => Ways.runSetChildren heap1 (ps.set i p1) rest

/-- The loop that fills in the updates (lines 50-52), from position `i` on: the next result is
assigned to `ways[i].Updates`, through the pointer `ways[i]`; a result beyond the end of `ways`
and a nil pointer raise a panic. -/
def Ways.fill (ways : List WayPtr) : Heap → Nat → List Updates → Heap × Option Panic
  | heap, _, [] => (heap, none)
  | heap, i, updates :: rest =>
    match ways[i]? with
    | none => (heap, some Panic.indexOutOfRange)
    | some none => (heap, some Panic.nilDereference)
    | some (some a) =>
      Ways.fill ways (Function.update heap a { heap a with Updates := updates }) (i + 1) rest

/-- The result of a call of Ways: the heap as the call leaves it, and either the error value
returned (`none` for nil) or the panic raised. -/
structure WaysResult where
  heap : Heap
  outcome : Except Panic (Option Error)

/-- The part of Ways after the call of Compute (lines 44-54), given what that call did. -/
def Ways.finish (mapErrors : Error → Error) (heap : Heap) (ways : List WayPtr)
    (out : ComputeOutcome) : WaysResult :=
  match Ways.runSetChildren heap (Ways.parents ways) out.setChildren with
  | (heap1, some e) => ⟨heap1, Except.error e⟩
  | (heap1, none) =>
    match out.result with
    | ComputeReturn.panic e => ⟨heap1, Except.error e⟩
    | ComputeReturn.error err => ⟨heap1, Except.ok (some (mapErrors err))⟩
    | ComputeReturn.updates updatesForParents =>
      match Ways.fill ways heap1 0 updatesForParents with
      | (heap2, some e) => ⟨heap2, Except.error e⟩
      | (heap2, none) => ⟨heap2, Except.ok none⟩

/-- The function Ways, run on a heap.  `Compute` and `mapErrors` are declared outside way.go and
are taken as parameters; `mapErrors` translates the error of the engine into an error of this
package.  `ways` is the slice of way pointers. -/
def Ways (Compute : ComputeFn) (mapErrors : Error → Error) (ctx : Context) (heap : Heap)
    (ways : List WayPtr) (datasource : NodeHistoryDatasourcer) (threshold : Duration)
    (opts : List WaysOption) : WaysResult :=
  match Ways.applyOptions ⟨0, 0⟩ opts with
  | Except.error err => ⟨heap, Except.ok (some err)⟩
  | Except.ok c =>
    let computeOpts : Options := { c with Threshold := threshold }
    Ways.finish mapErrors heap ways
      (Compute ctx heap (Ways.parents ways) ⟨datasource⟩ computeOpts)

/-! ## The reconciliation engine (package core)

`core.Compute` is declared outside way.go.  The definitions of this section follow the
component design of the specification (§4.1 to §4.5, §6, §7), one definition per component. -/

namespace core

/-- Modelled from the spec: the error kind MalformedHistory of §7 ("referenced child has an
empty version set"). -/
def MalformedHistory : Error := ⟨"malformed history"⟩

/-- Modelled from the spec: the error kind Cancelled of §7 ("cancellation signal observed
before completion"). -/
def Cancelled : Error := ⟨"cancelled"⟩

/-- Modelled from the spec: the order of a ChildTimeline (§4.1), "sorted ascending by
timestamp; versions with identical timestamps are ordered by version number ascending". -/
def versionLE (a b : Node) : Prop :=
  a.Timestamp.sinceZero < b.Timestamp.sinceZero ∨
    (a.Timestamp.sinceZero = b.Timestamp.sinceZero ∧ a.Version ≤ b.Version)

instance versionLE.decidable : DecidableRel versionLE :=
  fun _ _ => inferInstanceAs (Decidable (_ ∨ _))

/-- Modelled from the spec: the Timeline Builder (§4.1) turns the versions known for one
child into its timeline, sorted by `versionLE`, and "fails with MalformedHistory if a child has
zero versions yet is referenced". -/
def buildTimeline (versions : List Node) : Except Error (List Node) :=
  match versions with
  | [] => Except.error MalformedHistory
  | v :: rest => Except.ok ((v :: rest).insertionSort versionLE)

/-- Modelled from the spec: a ValidityWindow (§3) is `[start, end)`; `stop` is the end, `none`
when the window is unbounded. -/
structure ValidityWindow where
  start : Time
  stop : Option Time
  deriving DecidableEq, Repr

/-- Modelled from the spec: the effective timestamp of a parent version (§3), the committed
timestamp, which "if absent, defaults to the nominal timestamp"; the engine sees an absent
committed timestamp as the zero time that Committed() returns. -/
def effectiveTimestamp (p : parentWay) : Time :=
  if p.Committed = Time.zero then p.Timestamp else p.Committed

/-- Modelled from the spec: the Validity Window Resolver (§4.2): "start uses the
committed/effective timestamp"; the end is the effective timestamp of the next-known version,
and the window is unbounded when no subsequent version is known. -/
def resolveWindow (p : parentWay) (next : Option Time) : ValidityWindow :=
  ⟨effectiveTimestamp p, next⟩

/-- Modelled from the spec: whether a timestamp "falls strictly inside [start, end)" (§4.3):
after the start, at which the baseline is taken, and before the end. -/
def ValidityWindow.strictlyInside (win : ValidityWindow) (t : Time) : Bool :=
  decide (win.start.sinceZero < t.sinceZero) &&
    match win.stop with
    | none => true
    | some e => decide (t.sinceZero < e.sinceZero)

/-- Modelled from the spec: an event of the Event Merger (§4.3), "(timestamp, position,
newState)", kept with the child version that brings the new state. -/
structure Event where
  timestamp : Time
  position : Nat
  version : Node
  deriving DecidableEq, Repr

/-- Modelled from the spec: the state a child version brings (§3): the version itself, or
absent when its "visibility is false, which marks the child as gone". -/
def stateOf (v : Node) : Option Node := if v.Visible then some v else none

/-- The new state of an event. -/
def Event.newState (e : Event) : Option Node := stateOf e.version

/-- Modelled from the spec: the pending transitions of one position (§4.3): "one per child
version transition whose timestamp falls strictly inside [start, end)", in timeline order. -/
def transitions (win : ValidityWindow) (position : Nat) (timeline : List Node) : List Event :=
  (timeline.filter fun v => win.strictlyInside v.Timestamp).map
    fun v => ⟨v.Timestamp, position, v⟩

/-- Modelled from the spec: one step of the k-way merge (§4.3) over the pending transitions of
every position: the "globally earliest pending transition" (of the first such position on a
tie), with that position's cursor advanced; `none` when nothing is pending. -/
def earliestPending : List (List Event) → Option (Event × List (List Event))
  | [] => none
  | [] :: others =>
    match earliestPending others with
    | none => none
    | some (e, others1) => some (e, [] :: others1)
  | (a :: pending1) :: others =>
    match earliestPending others with
    | none => some (a, pending1 :: others)
    | some (e, others1) =>
      if a.timestamp.sinceZero ≤ e.timestamp.sinceZero then some (a, pending1 :: others)
      else some (e, (a :: pending1) :: others1)

/-- Modelled from the spec: the k-way merge (§4.3): "repeatedly emit the globally earliest
pending transition, advance that position's cursor"; one event is emitted per unit of fuel. -/
def mergeLoop : Nat → List (List Event) → List Event
  | 0, _ => []
  | fuel + 1, cursors =>
    match earliestPending cursors with
    | none => []
    | some (e, cursors1) => e :: mergeLoop fuel cursors1

/-- The number of pending events over all positions. -/
def pendingCount (cursors : List (List Event)) : Nat := (cursors.map List.length).sum

/-- Modelled from the spec: the Event Merger (§4.3): the raw chronological event sequence of
the timelines of a parent's referenced children, clipped to the validity window. -/
def mergeEvents (win : ValidityWindow) (timelines : List (List Node)) : List Event :=
  let cursors := timelines.enum.map fun it => transitions win it.1 it.2
  mergeLoop (pendingCount cursors) cursors

/-- Modelled from the spec: the state of a child at an instant (§3, §4.3): the latest version
of its timeline not after the instant; absent when there is none ("a child with no version
before start is treated as absent") or when that version is not visible. -/
def stateAt (timeline : List Node) (t : Time) : Option Node :=
  match (timeline.filter fun v => decide (v.Timestamp.sinceZero ≤ t.sinceZero)).getLast? with
  | none => none
  | some v => stateOf v

/-- A candidate checkpoint of the Coalescing Filter: its date and the state changes grouped
into it, as pairs of a position and the new state there, in event order. -/
structure Candidate where
  timestamp : Time
  changes : List (Nat × Option Node)
  deriving DecidableEq, Repr

/-- Modelled from the spec: rule 1 of the Coalescing Filter (§4.4): "drop any event whose new
child version carries the same changeset ID as the parent's own edit changeset". -/
def dropOwnChangeset (parentChangeset : Int) (events : List Event) : List Event :=
  events.filter fun e => decide (e.version.ChangesetID ≠ parentChangeset)

/-- Modelled from the spec: rule 2 of the Coalescing Filter (§4.4), with `cur` the checkpoint
being built: an event whose timestamp lies within `threshold` of the timestamp of `cur` joins
it, and the checkpoint is "dated at the last event's timestamp in the group"; any other event
closes `cur` and opens the next checkpoint. -/
def groupLoop (threshold : Duration) : Candidate → List Event → List Candidate
  | cur, [] => [cur]
  | cur, e :: rest =>
    if e.timestamp.Sub cur.timestamp ≤ threshold then
      groupLoop threshold ⟨e.timestamp, cur.changes ++ [(e.position, e.newState)]⟩ rest
    else
      cur :: groupLoop threshold ⟨e.timestamp, [(e.position, e.newState)]⟩ rest

/-- Modelled from the spec: rule 2 of the Coalescing Filter (§4.4) on a whole event sequence.
The first event opens the first checkpoint: the baseline is kept apart ("except the mandatory
baseline"), as in the example of §8 where events at T0+1, T0+2 and T0+4 with threshold 3 give
one checkpoint at T0+4. -/
def groupEvents (threshold : Duration) : List Event → List Candidate
  | [] => []
  | e :: rest => groupLoop threshold ⟨e.timestamp, [(e.position, e.newState)]⟩ rest

/-- Applies the state changes of a candidate to a per-position state, in event order. -/
def applyChanges (state : List (Option Node)) (changes : List (Nat × Option Node)) :
    List (Option Node) :=
  changes.foldl (fun st ch => st.set ch.1 ch.2) state

/-- Modelled from the spec: rule 3 of the Coalescing Filter (§4.4): "discard a candidate
checkpoint if, after applying its changes, the resulting full per-position state is
byte/field-identical to the previous checkpoint's state"; `prev` is that state, at first the
baseline. -/
def dropNoOps : List (Option Node) → List Candidate → List Checkpoint
  | _, [] => []
  | prev, c :: rest =>
    if applyChanges prev c.changes = prev then dropNoOps prev rest
    else ⟨c.timestamp, applyChanges prev c.changes⟩ :: dropNoOps (applyChanges prev c.changes) rest

/-- Modelled from the spec: the Coalescing Filter (§4.4), its three rules "applied in
order". -/
def coalesce (events : List Event) (parentChangeset : Int) (threshold : Duration)
    (baseline : List (Option Node)) : List Checkpoint :=
  dropNoOps baseline (groupEvents threshold (dropOwnChangeset parentChangeset events))

/-- Modelled from the spec: a ReconciliationResult (§3): the baseline state and the ordered
sequence of subsequent checkpoints. -/
structure ReconciliationResult where
  baseline : List (Option Node)
  updates : Updates
  deriving DecidableEq, Repr

/-- Modelled from the spec: the Checkpoint Materializer (§4.5) on the timelines of one parent:
the baseline is "the children's state at start (computed by evaluating each ChildTimeline at
start)", the updates are the filtered checkpoint sequence. -/
def reconcile (p : parentWay) (next : Option Time) (timelines : List (List Node))
    (threshold : Duration) : ReconciliationResult :=
  let win := resolveWindow p next
  let baseline := timelines.map fun timeline => stateAt timeline win.start
  ⟨baseline, coalesce (mergeEvents win timelines) p.ChangesetID threshold baseline⟩

/-- Modelled from the spec: the retrieval of one child's history (§6, §7): a child reported
as not found "is modeled as a child with an empty timeline"; any other failure is fatal to the
batch; the versions retrieved go through the Timeline Builder. -/
def fetchTimeline (wds : wayDatasource) (id : FeatureID) : Except Error (List Node) :=
  match wds.datasource.NodeHistory id.ref with
  | Except.error err => if wds.datasource.NotFound err then Except.ok [] else Except.error err
  | Except.ok versions => buildTimeline versions

/-- The timelines of the referenced children of a parent, or the first error. -/
def fetchTimelines (wds : wayDatasource) : List FeatureID → Except Error (List (List Node))
  | [] => Except.ok []
  | id :: rest =>
    match fetchTimeline wds id with
    | Except.error err => Except.error err
    | Except.ok timeline =>
      match fetchTimelines wds rest with
      | Except.error err => Except.error err
      | Except.ok timelines => Except.ok (timeline :: timelines)

/-- Modelled from the spec: the baseline as a child list (§4.5): a position that is absent at
start "is left unset", any other holds the child version in effect. -/
def baselineChildren (baseline : List (Option Node)) : ChildList :=
  baseline.enum.map fun it => it.2.map fun n => Child.childNode (some ⟨it.1, some n⟩)

/-- Modelled from the spec: "the next-known version's effective timestamp for the same parent
identity" (§4.2): that of the next parent version of the sequence, when it has the same
feature id. -/
def nextVersion (p : parentWay) : List parentWay → Option Time
  | [] => none
  | q :: _ => if q.ID = p.ID then some (effectiveTimestamp q) else none

/-- Modelled from the spec: the Orchestrator (§2, §5) over the parents from position `i` on:
the histories of a parent's children are retrieved, the parent is reconciled, its baseline is
written back with SetChildren and its updates are collected; the first error ends the batch
and no results are surfaced. -/
def computeLoop (wds : wayDatasource) (threshold : Duration) :
    Nat → List parentWay → ComputeOutcome
  | _, [] => ⟨[], ComputeReturn.updates []⟩
  | i, p :: rest =>
    match fetchTimelines wds p.Refs.1 with
    | Except.error err => ⟨[], ComputeReturn.error err⟩
    | Except.ok timelines =>
      let r := reconcile p (nextVersion p rest) timelines threshold
      let out := computeLoop wds threshold (i + 1) rest
      ⟨(i, baselineChildren r.baseline) :: out.setChildren,
        match out.result with
        | ComputeReturn.updates results => ComputeReturn.updates (r.updates :: results)
        | ComputeReturn.error err => ComputeReturn.error err
        | ComputeReturn.panic e => ComputeReturn.panic e⟩

/-- The parent versions behind the parents of a batch, read from the heap; `none` when a parent
holds a nil way pointer, which the engine cannot read. -/
def loadParents (heap : Heap) : List parentWayRef → Option (List parentWay)
  | [] => some []
  | p :: rest =>
    match p.load heap with
    | none => none
    | some w =>
      match loadParents heap rest with
      | none => none
      | some ws => some (w :: ws)

/-- Modelled from the spec: the batch operation Reconcile (§6), `core.Compute`: the results
are "positionally aligned with input"; a cancelled context fails the batch (§5, §7).  The
engine reads of a parent what SetChildren never writes (identity, timestamps, changeset,
references), so the parent versions are read once; reading a parent whose way pointer is nil
is a nil dereference. -/
def Compute : ComputeFn := fun ctx heap parents wds opts =>
  if ctx.cancelled then ⟨[], ComputeReturn.error Cancelled⟩
  else
    match loadParents heap parents with
    | none => ⟨[], ComputeReturn.panic Panic.nilDereference⟩
    | some ps => computeLoop wds opts.Threshold 0 ps

/-- Chronological order of events. -/
def Event.le (a b : Event) : Prop := a.timestamp.sinceZero ≤ b.timestamp.sinceZero

/-- Later than and more than the threshold apart: what rule 2 leaves between the dates of two
candidate checkpoints. -/
def Candidate.apart (threshold : Duration) (a b : Candidate) : Prop :=
  a.timestamp.sinceZero < b.timestamp.sinceZero ∧ threshold < b.timestamp.Sub a.timestamp

/-- Modelled from the spec: the monotonic-checkpoints property (§3, §8) of an update list:
"checkpoint timestamps are strictly increasing and each is ≥ threshold apart from its
predecessor". -/
def Monotonic (threshold : Duration) (updates : Updates) : Prop :=
  updates.Chain' fun a b =>
    a.Timestamp.sinceZero < b.Timestamp.sinceZero ∧ threshold ≤ b.Timestamp.Sub a.Timestamp

end core

/-! ## Sample inputs -/

/-- A way without a committed timestamp, edited at instant 5, with two nodes. -/
def sampleWay : Way :=
  { ID := 7, Visible := true, Version := 1, ChangesetID := 10, Timestamp := ⟨5⟩,
    Committed := none,
    Nodes := [⟨1, 0, 0, ⟨0⟩, ⟨0⟩⟩, ⟨2, 0, 0, ⟨0⟩, ⟨0⟩⟩],
    Updates := [] }

/-- The parentWay that Ways builds for `sampleWay`. -/
def sampleParent : parentWay := { Way := sampleWay, children := [], refs := none }

/-- The same way with a committed timestamp at instant 9. -/
def sampleCommitted : parentWay :=
  { Way := { sampleWay with Committed := some ⟨9⟩ }, children := [], refs := none }

/-- A version of node 1. -/
def sampleNode : Node :=
  { ID := 1, Lat := ⟨11⟩, Lon := ⟨12⟩, Version := 3, ChangesetID := 4, Visible := true,
    Timestamp := ⟨2⟩ }

/-- A child list for the sample way: a childNode wrapping `sampleNode`, then a nil child. -/
def sampleChildren : ChildList := [some (Child.childNode (some ⟨0, some sampleNode⟩)), none]

/-- A child list with a nil child and then a non-nil child at position 2, beyond the two nodes
of the sample way. -/
def longChildren : ChildList :=
  [none, none, some (Child.childNode (some ⟨2, some sampleNode⟩))]

/-- The version of node 1 with the given version number, timestamp, changeset and latitude. -/
def versionOf (version t changeset : Int) (lat : Nat) : Node :=
  { ID := 1, Lat := ⟨lat⟩, Lon := ⟨0⟩, Version := version, ChangesetID := changeset,
    Visible := true, Timestamp := ⟨t⟩ }

/-- The single version of node 2, at instant 50. -/
def staticNode : Node :=
  { ID := 2, Lat := ⟨7⟩, Lon := ⟨7⟩, Version := 1, ChangesetID := 2, Visible := true,
    Timestamp := ⟨50⟩ }

/-- A way committed at instant 100 in changeset 10, referencing nodes 1 and 2. -/
def historyWay : Way :=
  { ID := 7, Visible := true, Version := 1, ChangesetID := 10, Timestamp := ⟨100⟩,
    Committed := some ⟨100⟩,
    Nodes := [⟨1, 0, 0, ⟨0⟩, ⟨0⟩⟩, ⟨2, 0, 0, ⟨0⟩, ⟨0⟩⟩],
    Updates := [] }

/-- A datasource that knows the given history of node 1 and the single version of node 2. -/
def historySource (history : List Node) : NodeHistoryDatasourcer :=
  { NodeHistory := fun id =>
      if id = 1 then Except.ok history
      else if id = 2 then Except.ok [staticNode]
      else Except.error ⟨"not found"⟩,
    NotFound := fun err => err.msg = "not found" }

/-- An option that writes 99 into Threshold and succeeds. -/
def optThreshold : WaysOption := fun c => ({ c with Threshold := 99 }, none)

/-- An option that sets the concurrency limit to 4 and succeeds. -/
def optLimit : WaysOption := fun c => ({ c with ConcurrencyLimit := 4 }, none)

/-- An option that fails. -/
def optFail : WaysOption := fun c => (c, some ⟨"bad option"⟩)

/-- A heap whose every address holds a copy of the sample way. -/
def sampleHeap : Heap := fun _ => sampleWay

/-- A heap whose every address holds a copy of the way committed at instant 100. -/
def historyHeap : Heap := fun _ => historyWay

/-- A datasource in which node 1 and node 2 both change at instant 105. -/
def tieSource : NodeHistoryDatasourcer :=
  { NodeHistory := fun id =>
      if id = 1 then Except.ok [versionOf 1 99 1 8, versionOf 2 105 3 9]
      else if id = 2 then
        Except.ok [staticNode, { staticNode with Version := 2, ChangesetID := 4,
                                                 Lat := ⟨8⟩, Timestamp := ⟨105⟩ }]
      else Except.error ⟨"not found"⟩,
    NotFound := fun err => err.msg = "not found" }

/-- A datasource in which every node has an empty history. -/
def noHistory : NodeHistoryDatasourcer := ⟨fun _ => Except.ok [], fun _ => false⟩

/-- A Compute that sets a child on the first parent and returns one update list per parent,
a checkpoint at instant 8 for the first, at instant 9 for the second, and so on. -/
def sampleCompute : ComputeFn := fun _ _ parents _ _ =>
  { setChildren := [(0, [some (Child.childNode (some ⟨0, some sampleNode⟩))])],
    result := ComputeReturn.updates (parents.enum.map fun it => [⟨⟨it.1 + 8⟩, []⟩]) }

/-- A Compute that makes no call and returns for two parents a checkpoint at instant 1 and a
checkpoint at instant 2. -/
def numberedCompute : ComputeFn := fun _ _ _ _ _ =>
  { setChildren := [], result := ComputeReturn.updates [[⟨⟨1⟩, []⟩], [⟨⟨2⟩, []⟩]] }

/-- A Compute that makes no call and returns an empty update list per parent. -/
def quietCompute : ComputeFn := fun _ _ parents _ _ =>
  { setChildren := [], result := ComputeReturn.updates (parents.map fun _ => []) }

/-- A Compute that sets a child on the first parent and then fails. -/
def failingCompute : ComputeFn := fun _ _ _ _ _ =>
  { setChildren := [(0, [some (Child.childNode (some ⟨0, some sampleNode⟩))])],
    result := ComputeReturn.error ⟨"history unavailable"⟩ }

/-! ## Lemmas on the loops -/

theorem Ways.applyOptions_append (pre rest : List WaysOption) (c0 c : Options)
    (h : Ways.applyOptions c0 pre = Except.ok c) :
    Ways.applyOptions c0 (pre ++ rest) = Ways.applyOptions c rest := by
  induction pre generalizing c0 with
  | nil =>
    simp only [Ways.applyOptions, Except.ok.injEq] at h
    simp [h]
  | cons o pre ih =>
    simp only [Ways.applyOptions, List.cons_append] at h ⊢
    rcases ho : o c0 with ⟨c1, _ | e⟩
    · rw [ho] at h
      exact ih c1 h
    · rw [ho] at h
      cases h

/-- The loop of SetChildren keeps the length of the node list, keeps every node's ID, and
keeps every node whose position holds no child or a nil child. -/
theorem parentWay.SetChildren.loop_frame (list : ChildList) :
    ∀ (nodes : List WayNode) (i : Nat),
      (parentWay.SetChildren.loop nodes i list).1.length = nodes.length ∧
      ∀ j : Nat,
        (parentWay.SetChildren.loop nodes i list).1[j]?.map WayNode.ID
            = nodes[j]?.map WayNode.ID ∧
        ((j < i ∨ list[j - i]? = none ∨ list[j - i]? = some none) →
          (parentWay.SetChildren.loop nodes i list).1[j]? = nodes[j]?) := by
  induction list with
  | nil => intro nodes i; simp [parentWay.SetChildren.loop]
  | cons entry rest ih =>
    intro nodes i
    have hshift : ∀ j : Nat, ¬ j < i + 1 → (entry :: rest)[j - i]? = rest[j - (i + 1)]? := by
      intro j hj
      have : j - i = (j - (i + 1)) + 1 := by omega
      rw [this, List.getElem?_cons_succ]
    cases entry with
    | none =>
      simp only [parentWay.SetChildren.loop]
      refine ⟨(ih nodes (i + 1)).1, fun j => ⟨((ih nodes (i + 1)).2 j).1, fun hj => ?_⟩⟩
      apply ((ih nodes (i + 1)).2 j).2
      by_cases hlt : j < i + 1
      · exact Or.inl hlt
      · rw [hshift j hlt] at hj
        rcases hj with hj | hj
        · omega
        · exact Or.inr hj
    | some child =>
      rcases hassert : child.assertChildNode with _ | _ | c
      · simp [parentWay.SetChildren.loop, hassert]
      · simp [parentWay.SetChildren.loop, hassert]
      · rcases hnode : c.Node with _ | n
        · simp [parentWay.SetChildren.loop, hassert, hnode]
        · rcases hget : nodes[i]? with _ | wn
          · simp [parentWay.SetChildren.loop, hassert, hget, hnode]
          · simp only [parentWay.SetChildren.loop, hassert, hget, hnode]
            have hi : i < nodes.length := by
              rcases List.getElem?_eq_some.mp hget with ⟨h, _⟩
              exact h
            generalize hwn1 : ({ wn with Version := n.Version, ChangesetID := n.ChangesetID,
                                         Lat := n.Lat, Lon := n.Lon } : WayNode) = wn1
            have hid : wn1.ID = wn.ID := by rw [← hwn1]
            have hrec := ih (nodes.set i wn1) (i + 1)
            refine ⟨by rw [hrec.1, List.length_set], fun j => ⟨?_, fun hj => ?_⟩⟩
            · rw [(hrec.2 j).1, List.getElem?_set]
              by_cases hij : i = j
              · subst hij
                simp [hi, hget, hid]
              · simp [hij]
            · have hne : i ≠ j := by
                rintro rfl
                simp at hj
              have hj1 : j < i + 1 ∨ rest[j - (i + 1)]? = none
                  ∨ rest[j - (i + 1)]? = some none := by
                by_cases hlt : j < i + 1
                · exact Or.inl hlt
                · rw [hshift j hlt] at hj
                  rcases hj with hj | hj
                  · omega
                  · exact Or.inr hj
              rw [(hrec.2 j).2 hj1, List.getElem?_set_ne hne]

theorem Child.node?_eq_some {child : Child} {n : Node} (h : child.node? = some n) :
    ∃ c : annotate.childNode, child.assertChildNode = some (some c) ∧ c.Node = some n := by
  cases child with
  | childNode p =>
    cases p with
    | none => simp [Child.node?] at h
    | some c => exact ⟨c, rfl, by simpa [Child.node?] using h⟩
  | other t => simp [Child.node?] at h

theorem Child.node?_isSome {child : Child} (htype : child.isChildNode = true)
    (hnil : child.holdsNil = false) : child.node?.isSome = true := by
  cases child with
  | other t => simp [Child.isChildNode] at htype
  | childNode p =>
    cases p with
    | none => simp [Child.holdsNil] at hnil
    | some c =>
      cases hc : c.Node with
      | none => simp [Child.holdsNil, hc] at hnil
      | some n => simp [Child.node?, hc]

/-- When the list fits the node list from position `i` on and every non-nil child wraps a node,
the loop of SetChildren raises no panic. -/
theorem parentWay.SetChildren.loop_completes (list : ChildList) :
    ∀ (nodes : List WayNode) (i : Nat), i + list.length ≤ nodes.length →
      (∀ child, some child ∈ list → child.node?.isSome = true) →
      (parentWay.SetChildren.loop nodes i list).2 = none := by
  induction list with
  | nil => intro nodes i _ _; simp [parentWay.SetChildren.loop]
  | cons entry rest ih =>
    intro nodes i hlen hall
    have hlen1 : i + 1 + rest.length ≤ nodes.length := by
      simp only [List.length_cons] at hlen; omega
    have hall1 : ∀ child, some child ∈ rest → child.node?.isSome = true :=
      fun child hc => hall child (List.mem_cons_of_mem _ hc)
    cases entry with
    | none =>
      simp only [parentWay.SetChildren.loop]
      exact ih nodes (i + 1) hlen1 hall1
    | some child0 =>
      obtain ⟨n0, hn0⟩ := Option.isSome_iff_exists.mp (hall child0 (List.mem_cons_self _ _))
      obtain ⟨c, hassert, hnode⟩ := Child.node?_eq_some hn0
      have hi : i < nodes.length := by omega
      have hget : nodes[i]? = some nodes[i] := List.getElem?_eq_getElem hi
      simp only [parentWay.SetChildren.loop, hassert, hget, hnode]
      apply ih
      · rw [List.length_set]; exact hlen1
      · exact hall1

/-- When the loop of SetChildren raises no panic, every non-nil child of the list wraps a node
and the way node at its position holds that node's information. -/
theorem parentWay.SetChildren.loop_copies (list : ChildList) :
    ∀ (nodes : List WayNode) (i : Nat),
      (parentWay.SetChildren.loop nodes i list).2 = none →
      ∀ (k : Nat) (child : Child), list[k]? = some (some child) →
        ∃ n wn, child.node? = some n ∧
          (parentWay.SetChildren.loop nodes i list).1[i + k]? = some wn ∧
          wn.Version = n.Version ∧ wn.ChangesetID = n.ChangesetID ∧
          wn.Lat = n.Lat ∧ wn.Lon = n.Lon := by
  induction list with
  | nil => intro nodes i _ k child hk; simp at hk
  | cons entry rest ih =>
    intro nodes i hdone k child hk
    cases entry with
    | none =>
      simp only [parentWay.SetChildren.loop] at hdone ⊢
      cases k with
      | zero => simp at hk
      | succ k =>
        rw [List.getElem?_cons_succ] at hk
        have := ih nodes (i + 1) hdone k child hk
        rwa [show i + (k + 1) = i + 1 + k by omega]
    | some child0 =>
      rcases hassert : child0.assertChildNode with _ | _ | c
      · simp [parentWay.SetChildren.loop, hassert] at hdone
      · simp [parentWay.SetChildren.loop, hassert] at hdone
      · rcases hnode : c.Node with _ | n0
        · simp [parentWay.SetChildren.loop, hassert, hnode] at hdone
        · rcases hget : nodes[i]? with _ | wn0
          · simp [parentWay.SetChildren.loop, hassert, hget, hnode] at hdone
          · simp only [parentWay.SetChildren.loop, hassert, hget, hnode] at hdone ⊢
            have hi : i < nodes.length := by
              rcases List.getElem?_eq_some.mp hget with ⟨h, _⟩
              exact h
            have hn0 : child0.node? = some n0 := by
              cases child0 with
              | other t => simp [Child.assertChildNode] at hassert
              | childNode p =>
                simp only [Child.assertChildNode, Option.some.injEq] at hassert
                subst hassert
                simpa [Child.node?] using hnode
            generalize hwn1 : ({ wn0 with Version := n0.Version, ChangesetID := n0.ChangesetID,
                                          Lat := n0.Lat, Lon := n0.Lon } : WayNode) = wn1
              at hdone ⊢
            cases k with
            | zero =>
              simp only [List.getElem?_cons_zero, Option.some.injEq] at hk
              subst hk
              refine ⟨n0, wn1, hn0, ?_, ?_⟩
              · have hfr :=
                  ((parentWay.SetChildren.loop_frame rest (nodes.set i wn1) (i + 1)).2 i).2
                    (Or.inl (Nat.lt_succ_self i))
                show (parentWay.SetChildren.loop (nodes.set i wn1) (i + 1) rest).1[i]? = some wn1
                rw [hfr, List.getElem?_set_self hi]
              · subst hwn1
                exact ⟨rfl, rfl, rfl, rfl⟩
            | succ k =>
              rw [List.getElem?_cons_succ] at hk
              have := ih (nodes.set i wn1) (i + 1) hdone k child hk
              rwa [show i + (k + 1) = i + 1 + k by omega]

/-- When the list fits the node list from position `i` on and every non-nil child has the
dynamic type `*childNode`, the loop of SetChildren raises neither an index-out-of-range panic
nor a failed type assertion. -/
theorem parentWay.SetChildren.loop_panics (list : ChildList) :
    ∀ (nodes : List WayNode) (i : Nat), i + list.length ≤ nodes.length →
      (∀ child, some child ∈ list → child.isChildNode = true) →
      (parentWay.SetChildren.loop nodes i list).2 ≠ some Panic.indexOutOfRange ∧
      (parentWay.SetChildren.loop nodes i list).2 ≠ some Panic.typeAssertion := by
  induction list with
  | nil => intro nodes i _ _; simp [parentWay.SetChildren.loop]
  | cons entry rest ih =>
    intro nodes i hlen hall
    have hlen1 : i + 1 + rest.length ≤ nodes.length := by
      simp only [List.length_cons] at hlen; omega
    have hall1 : ∀ child, some child ∈ rest → child.isChildNode = true :=
      fun child hc => hall child (List.mem_cons_of_mem _ hc)
    cases entry with
    | none =>
      simp only [parentWay.SetChildren.loop]
      exact ih nodes (i + 1) hlen1 hall1
    | some child0 =>
      have h0 := hall child0 (List.mem_cons_self _ _)
      cases child0 with
      | other t => simp [Child.isChildNode] at h0
      | childNode p =>
        have hi : i < nodes.length := by omega
        have hget : nodes[i]? = some nodes[i] := List.getElem?_eq_getElem hi
        cases p with
        | none => simp [parentWay.SetChildren.loop, Child.assertChildNode]
        | some c =>
          rcases hnode : c.Node with _ | n
          · simp [parentWay.SetChildren.loop, Child.assertChildNode, hnode]
          · simp only [parentWay.SetChildren.loop, Child.assertChildNode, hget, hnode]
            apply ih
            · rw [List.length_set]; exact hlen1
            · exact hall1

/-- A non-nil child at a position at or beyond the end of the node list makes the loop of
SetChildren raise a panic. -/
theorem parentWay.SetChildren.loop_fails (list : ChildList) :
    ∀ (nodes : List WayNode) (i k : Nat) (child : Child), list[k]? = some (some child) →
      nodes.length ≤ i + k → (parentWay.SetChildren.loop nodes i list).2 ≠ none := by
  induction list with
  | nil => intro nodes i k child hk _; simp at hk
  | cons entry rest ih =>
    intro nodes i k child hk hlen
    cases entry with
    | none =>
      simp only [parentWay.SetChildren.loop]
      cases k with
      | zero => simp at hk
      | succ k =>
        rw [List.getElem?_cons_succ] at hk
        exact ih nodes (i + 1) k child hk (by omega)
    | some child0 =>
      rcases hassert : child0.assertChildNode with _ | _ | c
      · simp [parentWay.SetChildren.loop, hassert]
      · simp [parentWay.SetChildren.loop, hassert]
      · rcases hnode : c.Node with _ | n
        · simp [parentWay.SetChildren.loop, hassert, hnode]
        · rcases hget : nodes[i]? with _ | wn
          · simp [parentWay.SetChildren.loop, hassert, hget, hnode]
          · simp only [parentWay.SetChildren.loop, hassert, hget, hnode]
            have hi : i < nodes.length := by
              rcases List.getElem?_eq_some.mp hget with ⟨h, _⟩
              exact h
            cases k with
            | zero => omega
            | succ k =>
              rw [List.getElem?_cons_succ] at hk
              exact ih _ (i + 1) k child hk (by rw [List.length_set]; omega)

/-- SetChildren through a reference changes nothing of any way in the heap but its node list. -/
theorem parentWayRef.SetChildren_keeps (heap : Heap) (p : parentWayRef) (list : ChildList)
    (a : Nat) :
    { (p.SetChildren heap list).1 a with Nodes := [] } = { heap a with Nodes := [] } := by
  unfold parentWayRef.SetChildren
  cases p.Way with
  | none => rfl
  | some b =>
    by_cases hab : a = b
    · subst hab
      simp [Function.update_same, parentWay.SetChildren]
    · simp [Function.update_noteq hab]

/-- The calls of SetChildren that a Compute call makes change nothing of any way in the heap
but its node list. -/
theorem Ways.runSetChildren_frame (calls : List (Nat × ChildList)) :
    ∀ (heap : Heap) (ps : List parentWayRef) (a : Nat),
      { (Ways.runSetChildren heap ps calls).1 a with Nodes := [] }
        = { heap a with Nodes := [] } := by
  induction calls with
  | nil => intro heap ps a; rfl
  | cons call rest ih =>
    intro heap ps a
    obtain ⟨i, list⟩ := call
    rcases hget : ps[i]? with _ | p
    · simp only [Ways.runSetChildren, hget]
      exact ih heap ps a
    · have hfr := parentWayRef.SetChildren_keeps heap p list a
      rcases hcall : p.SetChildren heap list with ⟨heap1, p1, _ | e⟩
      · simp only [Ways.runSetChildren, hget, hcall]
        rw [ih heap1 (ps.set i p1) a]
        rwa [hcall] at hfr
      · simp only [Ways.runSetChildren, hget, hcall]
        rwa [hcall] at hfr

/-- The loop that fills in the updates changes nothing of any way but its Updates, and a way it
has changed holds one of the results. -/
theorem Ways.fill_frame (ways : List WayPtr) (results : List Updates) :
    ∀ (heap : Heap) (i a : Nat),
      { (Ways.fill ways heap i results).1 a with Updates := [] }
          = { heap a with Updates := [] } ∧
        ((Ways.fill ways heap i results).1 a = heap a ∨
          ((Ways.fill ways heap i results).1 a).Updates ∈ results) := by
  induction results with
  | nil => intro heap i a; exact ⟨rfl, Or.inl rfl⟩
  | cons u rest ih =>
    intro heap i a
    rcases hget : ways[i]? with _ | _ | b
    · simp [Ways.fill, hget]
    · simp [Ways.fill, hget]
    · simp only [Ways.fill, hget]
      obtain ⟨h1, h2⟩ := ih (Function.update heap b { heap b with Updates := u }) (i + 1) a
      by_cases hab : a = b
      · subst hab
        rw [Function.update_same] at h1 h2
        refine ⟨h1, Or.inr ?_⟩
        rcases h2 with h2 | h2
        · rw [h2]; exact List.mem_cons_self _ _
        · exact List.mem_cons_of_mem _ h2
      · rw [Function.update_noteq hab] at h1 h2
        refine ⟨h1, ?_⟩
        rcases h2 with h2 | h2
        · exact Or.inl h2
        · exact Or.inr (List.mem_cons_of_mem _ h2)

/-- When the loop that fills in the updates raises no panic, every position of a result holds
the address of a way, and that way is left with one of the results as its Updates. -/
theorem Ways.fill_mem (ways : List WayPtr) (results : List Updates) :
    ∀ (heap : Heap) (i : Nat), (Ways.fill ways heap i results).2 = none →
      ∀ k : Nat, k < results.length →
        ∃ a, ways[i + k]? = some (some a) ∧
          ((Ways.fill ways heap i results).1 a).Updates ∈ results := by
  induction results with
  | nil => intro heap i _ k hk; simp at hk
  | cons u rest ih =>
    intro heap i hdone k hk
    rcases hget : ways[i]? with _ | _ | b
    · simp [Ways.fill, hget] at hdone
    · simp [Ways.fill, hget] at hdone
    · simp only [Ways.fill, hget] at hdone ⊢
      cases k with
      | zero =>
        refine ⟨b, hget, ?_⟩
        rcases (Ways.fill_frame ways rest
          (Function.update heap b { heap b with Updates := u }) (i + 1) b).2 with h | h
        · rw [h, Function.update_same]; exact List.mem_cons_self _ _
        · exact List.mem_cons_of_mem _ h
      | succ k =>
        obtain ⟨a, ha, hmem⟩ := ih _ (i + 1) hdone k (by simpa using hk)
        refine ⟨a, ?_, List.mem_cons_of_mem _ hmem⟩
        rwa [show i + (k + 1) = i + 1 + k by omega]

/-- In a list without repetition an entry has one position. -/
theorem Ways.nodup_position {ways : List WayPtr} (hnodup : ways.Nodup) {i j : Nat} {p : WayPtr}
    (hi : ways[i]? = some p) (hj : ways[j]? = some p) : i = j := by
  have hlt : ∀ i j : Nat, i < j → ways[i]? = some p → ways[j]? = some p → False := by
    intro i j hij hi hj
    have hjl : j < ways.length := by
      rcases List.getElem?_eq_some.mp hj with ⟨h, _⟩
      exact h
    exact List.nodup_iff_getElem?_ne_getElem?.mp hnodup i j hij hjl (hi.trans hj.symm)
  rcases Nat.lt_trichotomy i j with h | h | h
  · exact (hlt i j h hi hj).elim
  · exact h
  · exact (hlt j i h hj hi).elim

/-- On pointers that are not nil and not repeated, with the results fitting the ways from
position `i` on, the loop that fills in the updates raises no panic, gives the way at the
position of each result that result as its Updates, and leaves every other way as it was. -/
theorem Ways.fill_spec (ways : List WayPtr) (hnil : ∀ p ∈ ways, p ≠ none)
    (hnodup : ways.Nodup) (results : List Updates) :
    ∀ (heap : Heap) (i : Nat), i + results.length ≤ ways.length →
      (Ways.fill ways heap i results).2 = none ∧
      (∀ (k a : Nat), ways[i + k]? = some (some a) → k < results.length →
        results[k]? = some ((Ways.fill ways heap i results).1 a).Updates) ∧
      (∀ a : Nat, (∀ k : Nat, k < results.length → ways[i + k]? ≠ some (some a)) →
        (Ways.fill ways heap i results).1 a = heap a) := by
  induction results with
  | nil =>
    intro heap i _
    refine ⟨rfl, fun k a _ hk => ?_, fun a _ => rfl⟩
    simp at hk
  | cons u rest ih =>
    intro heap i hlen
    simp only [List.length_cons] at hlen
    have hi : i < ways.length := by omega
    obtain ⟨b, hget⟩ : ∃ b, ways[i]? = some (some b) := by
      rcases hp : ways[i] with _ | b
      · exact (hnil none (hp ▸ List.getElem_mem hi) rfl).elim
      · exact ⟨b, by rw [List.getElem?_eq_getElem hi, hp]⟩
    simp only [Ways.fill, hget]
    obtain ⟨h1, h2, h3⟩ :=
      ih (Function.update heap b { heap b with Updates := u }) (i + 1) (by omega)
    refine ⟨h1, fun k a hk hklt => ?_, fun a ha => ?_⟩
    · cases k with
      | zero =>
        have hab : a = b := by
          have := hget.symm.trans hk
          simpa using this.symm
        subst hab
        have hother : ∀ k : Nat, k < rest.length → ways[i + 1 + k]? ≠ some (some a) := by
          intro k _ hk1
          have := Ways.nodup_position hnodup hget hk1
          omega
        rw [h3 a hother, Function.update_same]
        simp
      | succ k =>
        rw [List.getElem?_cons_succ]
        apply h2 k a
        · rwa [show i + 1 + k = i + (k + 1) by omega]
        · simpa using hklt
    · have hab : a ≠ b := by
        rintro rfl
        exact ha 0 (by simp) hget
      have hother : ∀ k : Nat, k < rest.length → ways[i + 1 + k]? ≠ some (some a) := by
        intro k hk
        rw [show i + 1 + k = i + (k + 1) by omega]
        exact ha (k + 1) (by simpa using hk)
      rw [h3 a hother, Function.update_noteq hab]

/-- A call of Ways that returns nil went through every stage: the options succeeded, the calls
of SetChildren made by Compute raised no panic, Compute returned results, and the loop that
fills them in raised no panic. -/
theorem Ways.outcome_ok_none (Compute : ComputeFn) (mapErrors : Error → Error) (ctx : Context)
    (heap : Heap) (ways : List WayPtr) (datasource : NodeHistoryDatasourcer)
    (threshold : Duration) (opts : List WaysOption)
    (hok : (Ways Compute mapErrors ctx heap ways datasource threshold opts).outcome
      = Except.ok none) :
    ∃ (c : Options) (results : List Updates) (heap1 : Heap),
      Ways.applyOptions ⟨0, 0⟩ opts = Except.ok c ∧
      (Compute ctx heap (Ways.parents ways) ⟨datasource⟩
        ⟨threshold, c.ConcurrencyLimit⟩).result = ComputeReturn.updates results ∧
      (Ways.fill ways heap1 0 results).2 = none ∧
      (Ways Compute mapErrors ctx heap ways datasource threshold opts).heap
        = (Ways.fill ways heap1 0 results).1 := by
  rcases hopts : Ways.applyOptions ⟨0, 0⟩ opts with err | c
  · simp [Ways, hopts] at hok
  · refine ⟨c, ?_⟩
    have hW : Ways Compute mapErrors ctx heap ways datasource threshold opts
        = Ways.finish mapErrors heap ways
          (Compute ctx heap (Ways.parents ways) ⟨datasource⟩
            ⟨threshold, c.ConcurrencyLimit⟩) := by
      simp only [Ways, hopts]
    rw [hW] at hok ⊢
    generalize Compute ctx heap (Ways.parents ways) ⟨datasource⟩
      ⟨threshold, c.ConcurrencyLimit⟩ = out at hok ⊢
    rcases hr : Ways.runSetChildren heap (Ways.parents ways) out.setChildren
      with ⟨heap1, _ | e⟩
    · rcases hres : out.result with results | err | e
      · rcases hf : Ways.fill ways heap1 0 results with ⟨heap2, _ | e⟩
        · refine ⟨results, heap1, rfl, rfl, by rw [hf], ?_⟩
          simp only [Ways.finish, hr, hres, hf]
        · simp [Ways.finish, hr, hres, hf] at hok
      · simp [Ways.finish, hr, hres] at hok
      · simp [Ways.finish, hr, hres] at hok
    · simp [Ways.finish, hr] at hok

/-! ## Lemmas on the engine -/

namespace core

theorem versionLE_total (a b : Node) : versionLE a b ∨ versionLE b a := by
  unfold versionLE
  omega

theorem versionLE_trans (a b c : Node) (hab : versionLE a b) (hbc : versionLE b c) :
    versionLE a c := by
  unfold versionLE at *
  omega

theorem versionLE_timestamp {a b : Node} (h : versionLE a b) :
    a.Timestamp.sinceZero ≤ b.Timestamp.sinceZero := by
  unfold versionLE at h
  omega

/-- The Timeline Builder returns a timeline in timeline order. -/
theorem buildTimeline_sorted {versions timeline : List Node}
    (h : buildTimeline versions = Except.ok timeline) : timeline.Pairwise versionLE := by
  cases versions with
  | nil => simp [buildTimeline] at h
  | cons v rest =>
    simp only [buildTimeline, Except.ok.injEq] at h
    subst h
    exact @List.sorted_insertionSort _ versionLE _ ⟨versionLE_total⟩ ⟨versionLE_trans⟩ _

theorem fetchTimeline_sorted {wds : wayDatasource} {id : FeatureID} {timeline : List Node}
    (h : fetchTimeline wds id = Except.ok timeline) : timeline.Pairwise versionLE := by
  unfold fetchTimeline at h
  split at h
  · split at h
    · simp only [Except.ok.injEq] at h
      subst h
      exact List.Pairwise.nil
    · cases h
  · exact buildTimeline_sorted h

theorem fetchTimelines_sorted {wds : wayDatasource} :
    ∀ {ids : List FeatureID} {timelines : List (List Node)},
      fetchTimelines wds ids = Except.ok timelines →
      ∀ timeline ∈ timelines, timeline.Pairwise versionLE := by
  intro ids
  induction ids with
  | nil =>
    intro timelines h
    simp only [fetchTimelines, Except.ok.injEq] at h
    subst h
    simp
  | cons id rest ih =>
    intro timelines h
    simp only [fetchTimelines] at h
    rcases h1 : fetchTimeline wds id with err | timeline
    · rw [h1] at h; cases h
    · rw [h1] at h
      rcases h2 : fetchTimelines wds rest with err | others
      · rw [h2] at h; cases h
      · rw [h2] at h
        simp only [Except.ok.injEq] at h
        subst h
        intro tl htl
        rcases List.mem_cons.mp htl with rfl | hmem
        · exact fetchTimeline_sorted h1
        · exact ih h2 tl hmem

/-- The pending transitions of a position are in chronological order when the timeline is in
timeline order. -/
theorem transitions_sorted (win : ValidityWindow) (position : Nat) {timeline : List Node}
    (h : timeline.Pairwise versionLE) : (transitions win position timeline).Pairwise Event.le := by
  unfold transitions
  rw [List.pairwise_map]
  exact (h.filter _).imp fun hab => versionLE_timestamp hab

theorem pendingCount_cons (s : List Event) (cursors : List (List Event)) :
    pendingCount (s :: cursors) = s.length + pendingCount cursors := by
  simp [pendingCount]

/-- With no earliest pending event, nothing is pending on any position. -/
theorem earliestPending_none :
    ∀ cursors : List (List Event), earliestPending cursors = none → pendingCount cursors = 0 := by
  intro cursors
  induction cursors with
  | nil => intro _; rfl
  | cons s others ih =>
    intro h
    cases s with
    | nil =>
      rcases h1 : earliestPending others with _ | ⟨e, others1⟩
      · simpa [pendingCount_cons] using ih h1
      · simp [earliestPending, h1] at h
    | cons a s1 =>
      rcases h1 : earliestPending others with _ | ⟨e, others1⟩
      · simp [earliestPending, h1] at h
      · simp only [earliestPending, h1] at h
        split at h <;> cases h

/-- A step of the merge takes one pending event away, the earliest of all, and leaves the
cursors in chronological order. -/
theorem earliestPending_some :
    ∀ (cursors : List (List Event)) (e : Event) (cursors1 : List (List Event)),
      earliestPending cursors = some (e, cursors1) →
      (∀ s ∈ cursors, s.Pairwise Event.le) →
      (∀ s ∈ cursors1, s.Pairwise Event.le) ∧
      (∀ s ∈ cursors, ∀ x ∈ s, Event.le e x) ∧
      (∀ s ∈ cursors1, ∀ x ∈ s, ∃ s0 ∈ cursors, x ∈ s0) ∧
      (∃ s0 ∈ cursors, e ∈ s0) ∧
      pendingCount cursors = pendingCount cursors1 + 1 := by
  intro cursors
  induction cursors with
  | nil => intro e cursors1 h; simp [earliestPending] at h
  | cons s others ih =>
    intro e cursors1 h hs
    have hs_s : s.Pairwise Event.le := hs s (List.mem_cons_self _ _)
    have hs_o : ∀ t ∈ others, t.Pairwise Event.le :=
      fun t ht => hs t (List.mem_cons_of_mem _ ht)
    cases s with
    | nil =>
      rcases h1 : earliestPending others with _ | ⟨e1, others1⟩
      · simp [earliestPending, h1] at h
      · simp only [earliestPending, h1, Option.some.injEq, Prod.mk.injEq] at h
        obtain ⟨rfl, rfl⟩ := h
        obtain ⟨i1, i2, i3, i5, i4⟩ := ih e1 others1 h1 hs_o
        refine ⟨?_, ?_, ?_, ?_, ?_⟩
        · intro t ht
          rcases List.mem_cons.mp ht with rfl | ht
          · exact List.Pairwise.nil
          · exact i1 t ht
        · intro t ht x hx
          rcases List.mem_cons.mp ht with rfl | ht
          · simp at hx
          · exact i2 t ht x hx
        · intro t ht x hx
          rcases List.mem_cons.mp ht with rfl | ht
          · simp at hx
          · obtain ⟨s0, hs0, hx0⟩ := i3 t ht x hx
            exact ⟨s0, List.mem_cons_of_mem _ hs0, hx0⟩
        · obtain ⟨s0, hs0, hx0⟩ := i5
          exact ⟨s0, List.mem_cons_of_mem _ hs0, hx0⟩
        · rw [pendingCount_cons, pendingCount_cons, i4]
          rfl
    | cons a s1 =>
      have ha : ∀ x ∈ s1, Event.le a x := (List.pairwise_cons.mp hs_s).1
      have hs1 : s1.Pairwise Event.le := (List.pairwise_cons.mp hs_s).2
      have haa : ∀ x ∈ a :: s1, Event.le a x := by
        intro x hx
        rcases List.mem_cons.mp hx with rfl | hx
        · exact le_refl _
        · exact ha x hx
      rcases h1 : earliestPending others with _ | ⟨e1, others1⟩
      · simp only [earliestPending, h1, Option.some.injEq, Prod.mk.injEq] at h
        obtain ⟨rfl, rfl⟩ := h
        have hzero := earliestPending_none others h1
        have hempty : ∀ t ∈ others, ∀ x ∈ t, False := by
          intro t ht x hx
          have : t.length ≤ pendingCount others := by
            unfold pendingCount
            exact List.single_le_sum (by simp) _ (List.mem_map_of_mem _ ht)
          have hpos : 0 < t.length := List.length_pos_of_mem hx
          omega
        refine ⟨?_, ?_, ?_, ?_, ?_⟩
        · intro t ht
          rcases List.mem_cons.mp ht with rfl | ht
          · exact hs1
          · exact hs_o t ht
        · intro t ht x hx
          rcases List.mem_cons.mp ht with rfl | ht
          · exact haa x hx
          · exact (hempty t ht x hx).elim
        · intro t ht x hx
          rcases List.mem_cons.mp ht with rfl | ht
          · exact ⟨a :: t, List.mem_cons_self _ _, List.mem_cons_of_mem _ hx⟩
          · exact ⟨t, List.mem_cons_of_mem _ ht, hx⟩
        · exact ⟨a :: s1, List.mem_cons_self _ _, List.mem_cons_self _ _⟩
        · rw [pendingCount_cons, pendingCount_cons, List.length_cons]
          omega
      · obtain ⟨i1, i2, i3, i5, i4⟩ := ih e1 others1 h1 hs_o
        simp only [earliestPending, h1] at h
        by_cases hle : a.timestamp.sinceZero ≤ e1.timestamp.sinceZero
        · rw [if_pos hle] at h
          simp only [Option.some.injEq, Prod.mk.injEq] at h
          obtain ⟨rfl, rfl⟩ := h
          refine ⟨?_, ?_, ?_, ?_, ?_⟩
          · intro t ht
            rcases List.mem_cons.mp ht with rfl | ht
            · exact hs1
            · exact hs_o t ht
          · intro t ht x hx
            rcases List.mem_cons.mp ht with rfl | ht
            · exact haa x hx
            · exact le_trans hle (i2 t ht x hx)
          · intro t ht x hx
            rcases List.mem_cons.mp ht with rfl | ht
            · exact ⟨a :: t, List.mem_cons_self _ _, List.mem_cons_of_mem _ hx⟩
            · exact ⟨t, List.mem_cons_of_mem _ ht, hx⟩
          · exact ⟨a :: s1, List.mem_cons_self _ _, List.mem_cons_self _ _⟩
          · rw [pendingCount_cons, pendingCount_cons, List.length_cons]
            omega
        · rw [if_neg hle] at h
          simp only [Option.some.injEq, Prod.mk.injEq] at h
          obtain ⟨rfl, rfl⟩ := h
          have hlt : Event.le e1 a := by unfold Event.le; omega
          refine ⟨?_, ?_, ?_, ?_, ?_⟩
          · intro t ht
            rcases List.mem_cons.mp ht with rfl | ht
            · exact hs_s
            · exact i1 t ht
          · intro t ht x hx
            rcases List.mem_cons.mp ht with rfl | ht
            · exact le_trans hlt (haa x hx)
            · exact i2 t ht x hx
          · intro t ht x hx
            rcases List.mem_cons.mp ht with rfl | ht
            · exact ⟨a :: s1, List.mem_cons_self _ _, hx⟩
            · obtain ⟨s0, hs0, hx0⟩ := i3 t ht x hx
              exact ⟨s0, List.mem_cons_of_mem _ hs0, hx0⟩
          · obtain ⟨s0, hs0, hx0⟩ := i5
            exact ⟨s0, List.mem_cons_of_mem _ hs0, hx0⟩
          · rw [pendingCount_cons, pendingCount_cons, i4]
            omega

/-- The merge emits as many events as its fuel, up to the number of pending events. -/
theorem mergeLoop_length :
    ∀ (fuel : Nat) (cursors : List (List Event)), (∀ s ∈ cursors, s.Pairwise Event.le) →
      (mergeLoop fuel cursors).length = min fuel (pendingCount cursors) := by
  intro fuel
  induction fuel with
  | zero => intro cursors _; simp [mergeLoop]
  | succ fuel ih =>
    intro cursors hs
    rcases h : earliestPending cursors with _ | ⟨e, cursors1⟩
    · simp [mergeLoop, h, earliestPending_none cursors h]
    · obtain ⟨i1, -, -, -, i4⟩ := earliestPending_some cursors e cursors1 h hs
      simp only [mergeLoop, h, List.length_cons, ih cursors1 i1, i4]
      omega

/-- The merge of cursors in chronological order emits pending events in chronological
order. -/
theorem mergeLoop_sorted :
    ∀ (fuel : Nat) (cursors : List (List Event)), (∀ s ∈ cursors, s.Pairwise Event.le) →
      (mergeLoop fuel cursors).Pairwise Event.le ∧
      ∀ x ∈ mergeLoop fuel cursors, ∃ s ∈ cursors, x ∈ s := by
  intro fuel
  induction fuel with
  | zero => intro cursors _; simp [mergeLoop]
  | succ fuel ih =>
    intro cursors hs
    rcases h : earliestPending cursors with _ | ⟨e, cursors1⟩
    · simp [mergeLoop, h]
    · obtain ⟨i1, i2, i3, i5, -⟩ := earliestPending_some cursors e cursors1 h hs
      obtain ⟨j1, j2⟩ := ih cursors1 i1
      simp only [mergeLoop, h]
      have hsub : ∀ x ∈ mergeLoop fuel cursors1, ∃ s ∈ cursors, x ∈ s := by
        intro x hx
        obtain ⟨s, hs1, hxs⟩ := j2 x hx
        exact i3 s hs1 x hxs
      refine ⟨List.pairwise_cons.mpr ⟨fun x hx => ?_, j1⟩, fun x hx => ?_⟩
      · obtain ⟨s, hs0, hxs⟩ := hsub x hx
        exact i2 s hs0 x hxs
      · rcases List.mem_cons.mp hx with rfl | hx
        · exact i5
        · exact hsub x hx

/-- The Event Merger emits every pending transition. -/
theorem mergeEvents_length (win : ValidityWindow) (timelines : List (List Node))
    (h : ∀ timeline ∈ timelines, timeline.Pairwise versionLE) :
    (mergeEvents win timelines).length
      = pendingCount (timelines.enum.map fun it => transitions win it.1 it.2) := by
  unfold mergeEvents
  rw [mergeLoop_length _ _ ?_, Nat.min_self]
  intro s hs
  obtain ⟨it, hit, rfl⟩ := List.mem_map.mp hs
  exact transitions_sorted win it.1 (h it.2 (List.snd_mem_of_mem_enum hit))

/-- The Event Merger emits the events in chronological order. -/
theorem mergeEvents_sorted (win : ValidityWindow) (timelines : List (List Node))
    (h : ∀ timeline ∈ timelines, timeline.Pairwise versionLE) :
    (mergeEvents win timelines).Pairwise Event.le := by
  unfold mergeEvents
  refine (mergeLoop_sorted _ _ ?_).1
  intro s hs
  obtain ⟨it, hit, rfl⟩ := List.mem_map.mp hs
  exact transitions_sorted win it.1 (h it.2 (List.snd_mem_of_mem_enum hit))

theorem apart_of_gap (a b c th : Int) (h0 : 0 ≤ th) (h1 : ¬ a - b ≤ th) (h2 : a ≤ c) :
    b < c ∧ th < c - b := by
  constructor <;> omega

/-- Rule 2 on events in chronological order, none earlier than the checkpoint being built:
the candidates are dated no earlier than that checkpoint, and any two of them are apart. -/
theorem groupLoop_apart (threshold : Duration) (h0 : 0 ≤ threshold) :
    ∀ (events : List Event) (cur : Candidate), events.Pairwise Event.le →
      (∀ e ∈ events, cur.timestamp.sinceZero ≤ e.timestamp.sinceZero) →
      (∀ c ∈ groupLoop threshold cur events, cur.timestamp.sinceZero ≤ c.timestamp.sinceZero) ∧
      (groupLoop threshold cur events).Pairwise (Candidate.apart threshold) := by
  intro events
  induction events with
  | nil =>
    intro cur _ _
    simp [groupLoop]
  | cons e rest ih =>
    intro cur hs hcur
    have hrest : rest.Pairwise Event.le := (List.pairwise_cons.mp hs).2
    have he : ∀ x ∈ rest, e.timestamp.sinceZero ≤ x.timestamp.sinceZero :=
      (List.pairwise_cons.mp hs).1
    have hce : cur.timestamp.sinceZero ≤ e.timestamp.sinceZero := hcur e (List.mem_cons_self _ _)
    simp only [groupLoop]
    split
    · obtain ⟨i1, i2⟩ := ih ⟨e.timestamp, cur.changes ++ [(e.position, e.newState)]⟩ hrest he
      exact ⟨fun c hc => le_trans hce (i1 c hc), i2⟩
    · rename_i hgap
      obtain ⟨i1, i2⟩ := ih ⟨e.timestamp, [(e.position, e.newState)]⟩ hrest he
      refine ⟨fun c hc => ?_, List.pairwise_cons.mpr ⟨fun c hc => ?_, i2⟩⟩
      · rcases List.mem_cons.mp hc with rfl | hc
        · exact le_refl _
        · exact le_trans hce (i1 c hc)
      · have hec : e.timestamp.sinceZero ≤ c.timestamp.sinceZero := i1 c hc
        exact apart_of_gap _ _ _ threshold h0 hgap hec

theorem groupEvents_apart (threshold : Duration) (h0 : 0 ≤ threshold) (events : List Event)
    (hs : events.Pairwise Event.le) :
    (groupEvents threshold events).Pairwise (Candidate.apart threshold) := by
  cases events with
  | nil => exact List.Pairwise.nil
  | cons e rest =>
    exact (groupLoop_apart threshold h0 rest ⟨e.timestamp, [(e.position, e.newState)]⟩
      (List.pairwise_cons.mp hs).2 (List.pairwise_cons.mp hs).1).2

/-- Rule 3 keeps or discards candidates: every checkpoint has the date of a candidate, and
checkpoints of candidates that are apart are apart. -/
theorem dropNoOps_apart (threshold : Duration) :
    ∀ (candidates : List Candidate) (prev : List (Option Node)),
      candidates.Pairwise (Candidate.apart threshold) →
      (∀ x ∈ dropNoOps prev candidates, ∃ c ∈ candidates, c.timestamp = x.Timestamp) ∧
      (dropNoOps prev candidates).Pairwise fun a b =>
        a.Timestamp.sinceZero < b.Timestamp.sinceZero ∧
          threshold < b.Timestamp.Sub a.Timestamp := by
  intro candidates
  induction candidates with
  | nil => intro prev _; simp [dropNoOps]
  | cons c rest ih =>
    intro prev hp
    have hc := (List.pairwise_cons.mp hp).1
    have hrest := (List.pairwise_cons.mp hp).2
    simp only [dropNoOps]
    split
    · obtain ⟨i1, i2⟩ := ih prev hrest
      refine ⟨fun x hx => ?_, i2⟩
      obtain ⟨c1, hc1, hx1⟩ := i1 x hx
      exact ⟨c1, List.mem_cons_of_mem _ hc1, hx1⟩
    · obtain ⟨i1, i2⟩ := ih (applyChanges prev c.changes) hrest
      refine ⟨fun x hx => ?_, List.pairwise_cons.mpr ⟨fun x hx => ?_, i2⟩⟩
      · rcases List.mem_cons.mp hx with rfl | hx
        · exact ⟨c, List.mem_cons_self _ _, rfl⟩
        · obtain ⟨c1, hc1, hx1⟩ := i1 x hx
          exact ⟨c1, List.mem_cons_of_mem _ hc1, hx1⟩
      · obtain ⟨c1, hc1, hx1⟩ := i1 x hx
        have := hc c1 hc1
        unfold Candidate.apart at this
        simp only [Time.Sub] at this ⊢
        rw [← hx1]
        exact this

/-- The Coalescing Filter, given events in chronological order and a non-negative threshold,
returns monotonic checkpoints. -/
theorem coalesce_monotonic (events : List Event) (parentChangeset : Int) (threshold : Duration)
    (baseline : List (Option Node)) (h0 : 0 ≤ threshold) (hs : events.Pairwise Event.le) :
    Monotonic threshold (coalesce events parentChangeset threshold baseline) := by
  unfold Monotonic coalesce
  have h1 : (dropOwnChangeset parentChangeset events).Pairwise Event.le := hs.filter _
  have h2 := groupEvents_apart threshold h0 _ h1
  have h3 := (dropNoOps_apart threshold _ baseline h2).2
  exact (h3.imp fun hab => ⟨hab.1, le_of_lt hab.2⟩).chain'

/-- The Orchestrator returns, when it succeeds, one update list per parent, each monotonic. -/
theorem computeLoop_results (wds : wayDatasource) (threshold : Duration) (h0 : 0 ≤ threshold) :
    ∀ (parents : List parentWay) (i : Nat) (results : List Updates),
      (computeLoop wds threshold i parents).result = ComputeReturn.updates results →
      results.length = parents.length ∧ ∀ updates ∈ results, Monotonic threshold updates := by
  intro parents
  induction parents with
  | nil =>
    intro i results h
    simp only [computeLoop, ComputeReturn.updates.injEq] at h
    subst h
    simp
  | cons p rest ih =>
    intro i results h
    simp only [computeLoop] at h
    rcases hf : fetchTimelines wds p.Refs.1 with err | timelines
    · rw [hf] at h; cases h
    · rw [hf] at h
      simp only at h
      rcases hr : (computeLoop wds threshold (i + 1) rest).result with others | err | e
      · rw [hr] at h
        simp only [ComputeReturn.updates.injEq] at h
        subst h
        obtain ⟨i1, i2⟩ := ih (i + 1) others hr
        refine ⟨by simp [i1], fun updates hu => ?_⟩
        rcases List.mem_cons.mp hu with rfl | hu
        · exact coalesce_monotonic _ _ _ _ h0
            (mergeEvents_sorted _ _ (fetchTimelines_sorted hf))
        · exact i2 updates hu
      · rw [hr] at h; cases h
      · rw [hr] at h; cases h

/-- The parent versions read from the heap are as many as the parents. -/
theorem loadParents_length (heap : Heap) :
    ∀ (parents : List parentWayRef) (ps : List parentWay),
      loadParents heap parents = some ps → ps.length = parents.length := by
  intro parents
  induction parents with
  | nil =>
    intro ps h
    simp only [loadParents, Option.some.injEq] at h
    subst h
    rfl
  | cons p rest ih =>
    intro ps h
    simp only [loadParents] at h
    rcases hp : p.load heap with _ | w
    · rw [hp] at h; cases h
    · rw [hp] at h
      rcases hl : loadParents heap rest with _ | ws
      · rw [hl] at h; cases h
      · rw [hl] at h
        simp only [Option.some.injEq] at h
        subst h
        simp [ih ws hl]

/-- The engine returns, when it succeeds with a threshold of at least zero, one update list per
parent, each monotonic. -/
theorem Compute_results (ctx : Context) (heap : Heap) (parents : List parentWayRef)
    (wds : wayDatasource) (opts : Options) (h0 : 0 ≤ opts.Threshold) (results : List Updates)
    (h : (Compute ctx heap parents wds opts).result = ComputeReturn.updates results) :
    results.length = parents.length ∧
      ∀ updates ∈ results, Monotonic opts.Threshold updates := by
  unfold Compute at h
  by_cases hc : ctx.cancelled = true
  · simp [hc] at h
  · rcases hl : loadParents heap parents with _ | ps
    · simp [hc, hl] at h
    · simp only [hc, hl] at h
      obtain ⟨h1, h2⟩ := computeLoop_results wds opts.Threshold h0 ps 0 results (by simpa using h)
      exact ⟨h1.trans (loadParents_length heap parents ps hl), h2⟩

end core

/-! ## Committed -/

/-- C1, as stated, fails: for the sample way, which has no committed timestamp and the nominal
timestamp 5, Committed() returns the zero time and not the nominal timestamp. -/
theorem Committed_nil_not_Timestamp :
    sampleParent.Way.Committed = none ∧
      sampleParent.Committed ≠ sampleParent.Way.Timestamp := by
  decide

/-- C1, amended: for every parentWay whose way has no committed timestamp, Committed() returns
the zero time `time.Time{}`; for every parentWay whose Way.Committed is set, Committed()
returns exactly that value. -/
theorem Committed_spec (w : parentWay) :
    (w.Way.Committed = none → w.Committed = Time.zero) ∧
      (∀ t, w.Way.Committed = some t → w.Committed = t) := by
  constructor
  · intro h
    simp [parentWay.Committed, h]
  · intro t h
    simp [parentWay.Committed, h]

theorem Committed_spec_witness :
    (sampleParent.Way.Committed = none ∧ sampleParent.Committed = Time.zero) ∧
      (sampleCommitted.Way.Committed = some ⟨9⟩ ∧ sampleCommitted.Committed = ⟨9⟩) :=
  ⟨⟨rfl, (Committed_spec sampleParent).1 rfl⟩, ⟨rfl, (Committed_spec sampleCommitted).2 ⟨9⟩ rfl⟩⟩

/-! ## Refs -/

/-- C7: for every parentWay whose refs field is unset, Refs() returns one feature id per way
node, in the order of Way.Nodes, the i-th entry being the feature id of the i-th node; the
call leaves the parentWay (and so the way) as it was, and a second call returns the same
list. -/
theorem Refs_spec (w : parentWay) (h : w.refs = none) :
    w.Refs.1.length = w.Way.Nodes.length ∧
      (∀ i : Nat, w.Refs.1[i]? = w.Way.Nodes[i]?.map WayNode.FeatureID) ∧
      w.Refs.2 = w ∧
      w.Refs.2.Refs.1 = w.Refs.1 := by
  simp [parentWay.Refs, parentWay.Refs.body, h, WayNodes.FeatureIDs]

theorem Refs_spec_witness :
    sampleParent.refs = none ∧
      (sampleParent.Refs.1.length = sampleParent.Way.Nodes.length ∧
        (∀ i : Nat, sampleParent.Refs.1[i]? =
          sampleParent.Way.Nodes[i]?.map WayNode.FeatureID) ∧
        sampleParent.Refs.2 = sampleParent ∧
        sampleParent.Refs.2.Refs.1 = sampleParent.Refs.1) :=
  ⟨rfl, Refs_spec sampleParent rfl⟩

/-! ## Options -/

/-- C8: when every option succeeds, leaving the options `c`, Ways continues with the result of
`core.Compute` called on options whose Threshold is the threshold argument (whatever the
options wrote into `c.Threshold`) and whose other field is as the options left it. -/
theorem Ways_threshold (Compute : ComputeFn) (mapErrors : Error → Error) (ctx : Context)
    (heap : Heap) (ways : List WayPtr) (datasource : NodeHistoryDatasourcer)
    (threshold : Duration) (opts : List WaysOption) (c : Options)
    (h : Ways.applyOptions ⟨0, 0⟩ opts = Except.ok c) :
    ∃ computeOpts : Options,
      computeOpts.Threshold = threshold ∧
      computeOpts.ConcurrencyLimit = c.ConcurrencyLimit ∧
      Ways Compute mapErrors ctx heap ways datasource threshold opts =
        Ways.finish mapErrors heap ways
          (Compute ctx heap (Ways.parents ways) ⟨datasource⟩ computeOpts) := by
  refine ⟨{ c with Threshold := threshold }, rfl, rfl, ?_⟩
  simp only [Ways, h]

theorem Ways_threshold_witness :
    Ways.applyOptions ⟨0, 0⟩ [optLimit, optThreshold] = Except.ok ⟨99, 4⟩ ∧
      ∃ computeOpts : Options,
        computeOpts.Threshold = 3 ∧
        computeOpts.ConcurrencyLimit = (⟨99, 4⟩ : Options).ConcurrencyLimit ∧
        Ways sampleCompute id ⟨false⟩ sampleHeap [some 0] noHistory 3
            [optLimit, optThreshold] =
          Ways.finish id sampleHeap [some 0]
            (sampleCompute ⟨false⟩ sampleHeap (Ways.parents [some 0]) ⟨noHistory⟩
              computeOpts) :=
  ⟨rfl, Ways_threshold sampleCompute id ⟨false⟩ sampleHeap [some 0] noHistory 3
    [optLimit, optThreshold] ⟨99, 4⟩ rfl⟩

/-- C9: when the options before some option all succeed and that option returns an error,
Ways returns exactly that error and leaves the heap, and so every way, as it was.  The result
depends neither on the options after the failing one nor on `Compute`: none of them is run. -/
theorem Ways_option_error (Compute : ComputeFn) (mapErrors : Error → Error) (ctx : Context)
    (heap : Heap) (ways : List WayPtr) (datasource : NodeHistoryDatasourcer)
    (threshold : Duration) (before : List WaysOption) (o : WaysOption)
    (after : List WaysOption) (c : Options) (err : Error)
    (hbefore : Ways.applyOptions ⟨0, 0⟩ before = Except.ok c)
    (ho : (o c).2 = some err) :
    Ways Compute mapErrors ctx heap ways datasource threshold (before ++ o :: after) =
      ⟨heap, Except.ok (some err)⟩ := by
  have happ := Ways.applyOptions_append before (o :: after) ⟨0, 0⟩ c hbefore
  rcases hoc : o c with ⟨c1, e⟩
  rw [hoc] at ho
  simp only at ho
  subst ho
  simp only [Ways, happ, Ways.applyOptions, hoc]

theorem Ways_option_error_witness :
    Ways.applyOptions ⟨0, 0⟩ [optLimit] = Except.ok ⟨0, 4⟩ ∧
      (optFail ⟨0, 4⟩).2 = some ⟨"bad option"⟩ ∧
      Ways sampleCompute id ⟨false⟩ sampleHeap [some 0] noHistory 3
          ([optLimit] ++ optFail :: [optThreshold]) =
        ⟨sampleHeap, Except.ok (some ⟨"bad option"⟩)⟩ :=
  ⟨rfl, rfl, Ways_option_error sampleCompute id ⟨false⟩ sampleHeap [some 0] noHistory 3
    [optLimit] optFail [optThreshold] ⟨0, 4⟩ ⟨"bad option"⟩ rfl rfl⟩

/-! ## SetChildren -/

/-- C2: for every parentWay and every child list no longer than the way's node list whose
non-nil entries are all childNode values, once SetChildren has completed every position i with
a non-nil child has Way.Nodes[i].Version, ChangesetID, Lat and Lon equal to those of that
child's node; and SetChildren does complete when none of these children is a nil pointer or
holds a nil Node. -/
theorem SetChildren_copies (w : parentWay) (list : ChildList)
    (hlen : list.length ≤ w.Way.Nodes.length)
    (htype : ∀ child, some child ∈ list → child.isChildNode = true) :
    ((∀ child, some child ∈ list → child.holdsNil = false) →
        (w.SetChildren list).2 = none) ∧
      ((w.SetChildren list).2 = none →
        ∀ (i : Nat) (child : Child), list[i]? = some (some child) →
          ∃ n wn, child.node? = some n ∧
            (w.SetChildren list).1.Way.Nodes[i]? = some wn ∧
            wn.Version = n.Version ∧ wn.ChangesetID = n.ChangesetID ∧
            wn.Lat = n.Lat ∧ wn.Lon = n.Lon) := by
  refine ⟨fun hnil => ?_, fun hdone i child hi => ?_⟩
  · exact parentWay.SetChildren.loop_completes list w.Way.Nodes 0 (by omega)
      fun child hc => Child.node?_isSome (htype child hc) (hnil child hc)
  · have := parentWay.SetChildren.loop_copies list w.Way.Nodes 0 hdone i child hi
    rwa [Nat.zero_add] at this

theorem SetChildren_copies_witness :
    sampleChildren.length ≤ sampleParent.Way.Nodes.length ∧
      (sampleParent.SetChildren sampleChildren).2 = none ∧
      ∃ n wn, (Child.childNode (some ⟨0, some sampleNode⟩)).node? = some n ∧
        (sampleParent.SetChildren sampleChildren).1.Way.Nodes[0]? = some wn ∧
        wn.Version = n.Version ∧ wn.ChangesetID = n.ChangesetID ∧
        wn.Lat = n.Lat ∧ wn.Lon = n.Lon :=
  have hmem : ∀ child, some child ∈ sampleChildren →
      child = Child.childNode (some ⟨0, some sampleNode⟩) := by
    intro child h
    simp only [sampleChildren, List.mem_cons, Option.some.injEq, List.mem_singleton,
      List.not_mem_nil, or_false] at h
    rcases h with h | h
    · exact h
    · cases h
  have htype : ∀ child, some child ∈ sampleChildren → child.isChildNode = true :=
    fun child h => by rw [hmem child h]; rfl
  have hnil : ∀ child, some child ∈ sampleChildren → child.holdsNil = false :=
    fun child h => by rw [hmem child h]; rfl
  have hdone := (SetChildren_copies sampleParent sampleChildren (by decide) htype).1 hnil
  ⟨by decide, hdone,
    (SetChildren_copies sampleParent sampleChildren (by decide) htype).2 hdone 0 _ rfl⟩

/-- C3: for every parentWay and every child list, SetChildren (whether it completes or stops
at a panic) leaves the length of the node list and every node's ID as they were, leaves every
node whose position holds no child or a nil child completely unchanged, and changes nothing of
the way but its node list: only Version, ChangesetID, Lat and Lon at positions with a non-nil
child may change. -/
theorem SetChildren_frame (w : parentWay) (list : ChildList) :
    (w.SetChildren list).1.Way.Nodes.length = w.Way.Nodes.length ∧
      (∀ i : Nat, (w.SetChildren list).1.Way.Nodes[i]?.map WayNode.ID
        = w.Way.Nodes[i]?.map WayNode.ID) ∧
      (∀ i : Nat, list[i]? = none ∨ list[i]? = some none →
        (w.SetChildren list).1.Way.Nodes[i]? = w.Way.Nodes[i]?) ∧
      (w.SetChildren list).1.Way = { w.Way with Nodes := (w.SetChildren list).1.Way.Nodes } := by
  have h := parentWay.SetChildren.loop_frame list w.Way.Nodes 0
  refine ⟨h.1, fun i => (h.2 i).1, fun i hi => (h.2 i).2 (Or.inr hi), rfl⟩

/-- C10: for every parentWay and every child list whose length is at most the number of way
nodes and whose non-nil entries are all childNode values, SetChildren raises neither an
index-out-of-range panic nor a failed type assertion, and it completes when none of these
children is a nil pointer or holds a nil Node; a list holding a non-nil child at an index at or
beyond the number of way nodes makes it stop at a panic. -/
theorem SetChildren_safety (w : parentWay) (list : ChildList) :
    (list.length ≤ w.Way.Nodes.length →
      (∀ child, some child ∈ list → child.isChildNode = true) →
        (w.SetChildren list).2 ≠ some Panic.indexOutOfRange ∧
        (w.SetChildren list).2 ≠ some Panic.typeAssertion ∧
        ((∀ child, some child ∈ list → child.holdsNil = false) →
          (w.SetChildren list).2 = none)) ∧
      (∀ (k : Nat) (child : Child), w.Way.Nodes.length ≤ k → list[k]? = some (some child) →
        (w.SetChildren list).2 ≠ none) := by
  refine ⟨fun hlen htype => ?_, fun k child hk hget => ?_⟩
  · have h := parentWay.SetChildren.loop_panics list w.Way.Nodes 0 (by omega) htype
    exact ⟨h.1, h.2, fun hnil =>
      parentWay.SetChildren.loop_completes list w.Way.Nodes 0 (by omega)
        fun child hc => Child.node?_isSome (htype child hc) (hnil child hc)⟩
  · exact parentWay.SetChildren.loop_fails list w.Way.Nodes 0 k child hget (by omega)

theorem SetChildren_safety_witness :
    (sampleChildren.length ≤ sampleParent.Way.Nodes.length ∧
      (sampleParent.SetChildren sampleChildren).2 ≠ some Panic.indexOutOfRange ∧
      (sampleParent.SetChildren sampleChildren).2 ≠ some Panic.typeAssertion ∧
      (sampleParent.SetChildren sampleChildren).2 = none) ∧
    (sampleParent.Way.Nodes.length ≤ 2 ∧
      longChildren[2]? = some (some (Child.childNode (some ⟨2, some sampleNode⟩))) ∧
      (sampleParent.SetChildren longChildren).2 ≠ none) :=
  have hmem : ∀ child, some child ∈ sampleChildren →
      child = Child.childNode (some ⟨0, some sampleNode⟩) := by
    intro child h
    simp only [sampleChildren, List.mem_cons, Option.some.injEq, List.mem_singleton,
      List.not_mem_nil, or_false] at h
    rcases h with h | h
    · exact h
    · cases h
  have htype : ∀ child, some child ∈ sampleChildren → child.isChildNode = true :=
    fun child h => by rw [hmem child h]; rfl
  have hnil : ∀ child, some child ∈ sampleChildren → child.holdsNil = false :=
    fun child h => by rw [hmem child h]; rfl
  have h1 := (SetChildren_safety sampleParent sampleChildren).1 (by decide) htype
  ⟨⟨by decide, h1.1, h1.2.1, h1.2.2 hnil⟩,
    ⟨by decide, rfl, (SetChildren_safety sampleParent longChildren).2 2 _ (by decide) rfl⟩⟩

/-! ## Ways -/

/-- C4, as stated, fails on a list that names a way twice and on a list with a nil entry.  For
the list `[p, p]` and a Compute that succeeds with a checkpoint at instant 1 for the first
parent and one at instant 2 for the second, Ways returns nil and leaves the second result, not
the first, as `ways[0].Updates`.  For the list `[nil]` and a Compute that succeeds with one
result, Ways stops at a nil dereference and returns nothing. -/
theorem Ways_repeated_or_nil_way :
    ((numberedCompute ⟨false⟩ sampleHeap (Ways.parents [some 0, some 0]) ⟨noHistory⟩
          ⟨0, 0⟩).result = ComputeReturn.updates [[⟨⟨1⟩, []⟩], [⟨⟨2⟩, []⟩]] ∧
        (Ways numberedCompute id ⟨false⟩ sampleHeap [some 0, some 0] noHistory 0 []).outcome
          = Except.ok none ∧
        ((Ways numberedCompute id ⟨false⟩ sampleHeap [some 0, some 0] noHistory 0 []).heap
          0).Updates = [⟨⟨2⟩, []⟩] ∧
        ((Ways numberedCompute id ⟨false⟩ sampleHeap [some 0, some 0] noHistory 0 []).heap
          0).Updates ≠ [⟨⟨1⟩, []⟩]) ∧
      ((quietCompute ⟨false⟩ sampleHeap (Ways.parents [none]) ⟨noHistory⟩ ⟨0, 0⟩).result
          = ComputeReturn.updates [[]] ∧
        (Ways quietCompute id ⟨false⟩ sampleHeap [none] noHistory 0 []).outcome
          = Except.error Panic.nilDereference) := by
  refine ⟨⟨rfl, rfl, ?_, ?_⟩, rfl, rfl⟩ <;> decide

/-- C4, amended: for every input list of ways that are not nil and pairwise distinct, when no
option fails and `core.Compute` succeeds with one result per parent, Ways returns nil; the
parent list given to Compute has the length and order of the input ways, its i-th element
wrapping ways[i]; and for every index i the way ways[i] has as its Updates the i-th result
that Compute returned.  Nothing else changes but the node annotations. -/
theorem Ways_success (Compute : ComputeFn) (mapErrors : Error → Error) (ctx : Context)
    (heap : Heap) (ways : List WayPtr) (datasource : NodeHistoryDatasourcer)
    (threshold : Duration) (opts : List WaysOption) (c : Options) (results : List Updates)
    (hopts : Ways.applyOptions ⟨0, 0⟩ opts = Except.ok c)
    (hrun : (Ways.runSetChildren heap (Ways.parents ways)
      (Compute ctx heap (Ways.parents ways) ⟨datasource⟩
        ⟨threshold, c.ConcurrencyLimit⟩).setChildren).2 = none)
    (hres : (Compute ctx heap (Ways.parents ways) ⟨datasource⟩
      ⟨threshold, c.ConcurrencyLimit⟩).result = ComputeReturn.updates results)
    (hlen : results.length = ways.length)
    (hnil : ∀ p ∈ ways, p ≠ none)
    (hdistinct : ways.Nodup) :
    (Ways Compute mapErrors ctx heap ways datasource threshold opts).outcome = Except.ok none ∧
      (Ways.parents ways).map parentWayRef.Way = ways ∧
      (∀ (i a : Nat), ways[i]? = some (some a) →
        results[i]? = some
          ((Ways Compute mapErrors ctx heap ways datasource threshold opts).heap a).Updates) ∧
      (∀ a : Nat,
        { (Ways Compute mapErrors ctx heap ways datasource threshold opts).heap a with
            Nodes := [], Updates := [] }
          = { heap a with Nodes := [], Updates := [] }) := by
  have hparents : (Ways.parents ways).map parentWayRef.Way = ways := by
    simp [Ways.parents, Function.comp_def]
  generalize hout : Compute ctx heap (Ways.parents ways) ⟨datasource⟩
    ⟨threshold, c.ConcurrencyLimit⟩ = out at hrun hres
  have hfr := Ways.runSetChildren_frame out.setChildren heap (Ways.parents ways)
  rcases hr : Ways.runSetChildren heap (Ways.parents ways) out.setChildren with ⟨heap1, pn⟩
  rw [hr] at hrun hfr
  simp only at hrun hfr
  subst hrun
  obtain ⟨hf1, hf2, -⟩ := Ways.fill_spec ways hnil hdistinct results heap1 0 (by omega)
  have hff := Ways.fill_frame ways results heap1 0
  rcases hf : Ways.fill ways heap1 0 results with ⟨heap2, pf⟩
  rw [hf] at hf1 hf2 hff
  simp only at hf1 hf2 hff
  subst hf1
  have hW : Ways Compute mapErrors ctx heap ways datasource threshold opts
      = ⟨heap2, Except.ok none⟩ := by
    simp only [Ways, hopts, hout, Ways.finish, hr, hres, hf]
  rw [hW]
  refine ⟨rfl, hparents, fun i a hi => ?_, fun a => ?_⟩
  · have hilt : i < results.length := by
      rcases List.getElem?_eq_some.mp hi with ⟨h, _⟩
      omega
    exact hf2 i a (by rwa [Nat.zero_add]) hilt
  · have h1 := congrArg (fun w : Way => { w with Nodes := [] }) (hff a).1
    have h2 := congrArg (fun w : Way => { w with Updates := [] }) (hfr a)
    exact h1.trans h2

theorem Ways_success_witness :
    (Ways sampleCompute id ⟨false⟩ sampleHeap [some 3, some 1] noHistory 3
        [optLimit]).outcome = Except.ok none ∧
      ((Ways sampleCompute id ⟨false⟩ sampleHeap [some 3, some 1] noHistory 3
        [optLimit]).heap 3).Updates = [⟨⟨8⟩, []⟩] ∧
      ((Ways sampleCompute id ⟨false⟩ sampleHeap [some 3, some 1] noHistory 3
        [optLimit]).heap 1).Updates = [⟨⟨9⟩, []⟩] :=
  have h := Ways_success sampleCompute id ⟨false⟩ sampleHeap [some 3, some 1] noHistory 3
    [optLimit] ⟨0, 4⟩ [[⟨⟨8⟩, []⟩], [⟨⟨9⟩, []⟩]] rfl (by decide) rfl rfl (by decide)
    (by decide)
  ⟨h.1, (Option.some.inj (h.2.2.1 0 3 rfl)).symm, (Option.some.inj (h.2.2.1 1 1 rfl)).symm⟩

/-- C5: when no option fails and `core.Compute` returns an error, Ways returns mapErrors of
that error and assigns no results: every way of the heap, and so every input way, has the
Updates it had before the call. -/
theorem Ways_compute_error (Compute : ComputeFn) (mapErrors : Error → Error) (ctx : Context)
    (heap : Heap) (ways : List WayPtr) (datasource : NodeHistoryDatasourcer)
    (threshold : Duration) (opts : List WaysOption) (c : Options) (err : Error)
    (hopts : Ways.applyOptions ⟨0, 0⟩ opts = Except.ok c)
    (hrun : (Ways.runSetChildren heap (Ways.parents ways)
      (Compute ctx heap (Ways.parents ways) ⟨datasource⟩
        ⟨threshold, c.ConcurrencyLimit⟩).setChildren).2 = none)
    (hres : (Compute ctx heap (Ways.parents ways) ⟨datasource⟩
      ⟨threshold, c.ConcurrencyLimit⟩).result = ComputeReturn.error err) :
    (Ways Compute mapErrors ctx heap ways datasource threshold opts).outcome
        = Except.ok (some (mapErrors err)) ∧
      ∀ a : Nat,
        ((Ways Compute mapErrors ctx heap ways datasource threshold opts).heap a).Updates
          = (heap a).Updates := by
  generalize hout : Compute ctx heap (Ways.parents ways) ⟨datasource⟩
    ⟨threshold, c.ConcurrencyLimit⟩ = out at hrun hres
  have hfr := Ways.runSetChildren_frame out.setChildren heap (Ways.parents ways)
  rcases hr : Ways.runSetChildren heap (Ways.parents ways) out.setChildren with ⟨heap1, pn⟩
  rw [hr] at hrun hfr
  simp only at hrun hfr
  subst hrun
  have hW : Ways Compute mapErrors ctx heap ways datasource threshold opts
      = ⟨heap1, Except.ok (some (mapErrors err))⟩ := by
    simp only [Ways, hopts, hout, Ways.finish, hr, hres]
  rw [hW]
  refine ⟨rfl, fun a => ?_⟩
  have h := congrArg Way.Updates (hfr a)
  exact h

theorem Ways_compute_error_witness :
    (Ways failingCompute (fun e => ⟨e.msg ++ "!"⟩) ⟨false⟩ sampleHeap [some 0] noHistory 3
        [optLimit]).outcome = Except.ok (some ⟨"history unavailable!"⟩) ∧
      ((Ways failingCompute (fun e => ⟨e.msg ++ "!"⟩) ⟨false⟩ sampleHeap [some 0] noHistory 3
        [optLimit]).heap 0).Updates = (sampleHeap 0).Updates :=
  have h := Ways_compute_error failingCompute (fun e => ⟨e.msg ++ "!"⟩) ⟨false⟩ sampleHeap
    [some 0] noHistory 3 [optLimit] ⟨0, 4⟩ ⟨"history unavailable"⟩ rfl (by decide) rfl
  ⟨h.1, h.2 0⟩

/-! ## The engine on the examples of the specification (§8) -/

/-- Node 1 has versions at T0-1 and T0+5, node 2 is static, the threshold is 0: the baseline
uses the version at T0-1, and there is one checkpoint, at T0+5. -/
theorem core.example_one_checkpoint :
    ((Ways core.Compute id ⟨false⟩ historyHeap [some 0]
        (historySource [versionOf 2 105 3 9, versionOf 1 99 1 8]) 0 []).heap 0).Nodes.map
          WayNode.Version = [1, 1] ∧
      ((Ways core.Compute id ⟨false⟩ historyHeap [some 0]
        (historySource [versionOf 2 105 3 9, versionOf 1 99 1 8]) 0 []).heap 0).Updates.map
          Checkpoint.Timestamp = [⟨105⟩] := by
  decide

/-- The same history, but the version at T0+5 shares the changeset of the way: there is no
checkpoint. -/
theorem core.example_own_changeset :
    ((Ways core.Compute id ⟨false⟩ historyHeap [some 0]
        (historySource [versionOf 2 105 10 9, versionOf 1 99 1 8]) 0 []).heap 0).Nodes.map
          WayNode.Version = [1, 1] ∧
      ((Ways core.Compute id ⟨false⟩ historyHeap [some 0]
        (historySource [versionOf 2 105 10 9, versionOf 1 99 1 8]) 0 []).heap 0).Updates
          = [] := by
  decide

/-- Node 1 has versions at T0+1, T0+2 and T0+4 and the threshold is 3: the three events
coalesce into a single checkpoint at T0+4 that holds the final state of node 1. -/
theorem core.example_coalesced :
    ((Ways core.Compute id ⟨false⟩ historyHeap [some 0]
        (historySource [versionOf 1 101 3 9, versionOf 2 102 4 10, versionOf 3 104 5 11]) 3
        []).heap 0).Updates
      = [⟨⟨104⟩, [some (versionOf 3 104 5 11), some staticNode]⟩] := by
  decide

/-- A way named twice in the input list: the engine treats the two parents as successive
versions and returns different results for them, and the way is left with the second. -/
theorem core.example_repeated_way :
    (core.Compute ⟨false⟩ historyHeap (Ways.parents [some 0, some 0])
        ⟨historySource [versionOf 2 105 3 9, versionOf 1 99 1 8]⟩ ⟨0, 0⟩).result
        = ComputeReturn.updates
          [[], [⟨⟨105⟩, [some (versionOf 2 105 3 9), some staticNode]⟩]] ∧
      ((Ways core.Compute id ⟨false⟩ historyHeap [some 0, some 0]
        (historySource [versionOf 2 105 3 9, versionOf 1 99 1 8]) 0 []).heap 0).Updates
        = [⟨⟨105⟩, [some (versionOf 2 105 3 9), some staticNode]⟩] := by
  refine ⟨rfl, ?_⟩
  decide

/-! ## Monotonic checkpoints -/

/-- C6, as stated, fails for a negative threshold, which Ways hands to the engine as it is:
with the threshold -1 and two nodes that both change at instant 105, the call succeeds and
the Updates list of the way holds two checkpoints with the same timestamp. -/
theorem Ways_negative_threshold :
    (Ways core.Compute id ⟨false⟩ historyHeap [some 0] tieSource (-1) []).outcome
        = Except.ok none ∧
      ((Ways core.Compute id ⟨false⟩ historyHeap [some 0] tieSource (-1) []).heap 0).Updates.map
        Checkpoint.Timestamp = [⟨105⟩, ⟨105⟩] ∧
      ¬ core.Monotonic (-1)
        ((Ways core.Compute id ⟨false⟩ historyHeap [some 0] tieSource (-1) []).heap 0).Updates := by
  have hts : ((Ways core.Compute id ⟨false⟩ historyHeap [some 0] tieSource (-1)
      []).heap 0).Updates.map Checkpoint.Timestamp = [⟨105⟩, ⟨105⟩] := by decide
  refine ⟨rfl, hts, fun h => ?_⟩
  have h1 : List.Chain' (fun a b : Time => a.sinceZero < b.sinceZero)
      (((Ways core.Compute id ⟨false⟩ historyHeap [some 0] tieSource (-1)
        []).heap 0).Updates.map Checkpoint.Timestamp) :=
    (List.chain'_map _).mpr (List.Chain'.imp (fun _ _ hab => hab.1) h)
  rw [hts] at h1
  exact absurd (List.chain'_pair.mp h1) (by decide)

/-- C6, amended: for every way that a successful call to Ways with a threshold of at least
zero annotates, with the engine of the specification as `core.Compute`, the timestamps of the
checkpoints in its Updates list are strictly increasing and every checkpoint is at least the
threshold later than its predecessor (the baseline is written onto the way nodes and is not
part of the list). -/
theorem Ways_updates_monotonic (mapErrors : Error → Error) (ctx : Context) (heap : Heap)
    (ways : List WayPtr) (datasource : NodeHistoryDatasourcer) (threshold : Duration)
    (opts : List WaysOption)
    (h0 : 0 ≤ threshold)
    (hok : (Ways core.Compute mapErrors ctx heap ways datasource threshold opts).outcome
      = Except.ok none) :
    ∀ a : Nat, some a ∈ ways →
      core.Monotonic threshold
        ((Ways core.Compute mapErrors ctx heap ways datasource threshold opts).heap a).Updates := by
  obtain ⟨c, results, heap1, -, hres, hfill, hheap⟩ :=
    Ways.outcome_ok_none core.Compute mapErrors ctx heap ways datasource threshold opts hok
  obtain ⟨hlen, hmono⟩ := core.Compute_results ctx heap (Ways.parents ways) ⟨datasource⟩
    ⟨threshold, c.ConcurrencyLimit⟩ h0 results hres
  have hlen1 : results.length = ways.length := by
    simpa [Ways.parents] using hlen
  intro a ha
  obtain ⟨k, hk⟩ := List.getElem?_of_mem ha
  have hklt : k < results.length := by
    rcases List.getElem?_eq_some.mp hk with ⟨h, _⟩
    omega
  obtain ⟨b, hb, hmem⟩ := Ways.fill_mem ways results heap1 0 hfill k hklt
  rw [Nat.zero_add, hk] at hb
  simp only [Option.some.injEq] at hb
  subst hb
  rw [hheap]
  exact hmono _ hmem

theorem Ways_updates_monotonic_witness :
    (0 : Duration) ≤ 1 ∧
      (Ways core.Compute id ⟨false⟩ historyHeap [some 0]
        (historySource [versionOf 2 101 3 9, versionOf 3 102 4 10, versionOf 4 104 5 11,
          versionOf 1 99 1 8]) 1 []).outcome = Except.ok none ∧
      core.Monotonic 1
        ((Ways core.Compute id ⟨false⟩ historyHeap [some 0]
          (historySource [versionOf 2 101 3 9, versionOf 3 102 4 10, versionOf 4 104 5 11,
            versionOf 1 99 1 8]) 1 []).heap 0).Updates :=
  ⟨by decide, rfl, Ways_updates_monotonic id ⟨false⟩ historyHeap [some 0]
    (historySource [versionOf 2 101 3 9, versionOf 3 102 4 10, versionOf 4 104 5 11,
      versionOf 1 99 1 8]) 1 [] (by decide) rfl 0 (by decide)⟩

end annotate
